import Mathlib

/-!
Chunk keys of `mcbekey.hpp` and the NBT reader of `nbt.cc`.

A shallow embedding of the chunk-key codec of `src/mcbekey.hpp`
(`is_chunk_key`, `parse_chunk_key`, `create_chunk_key`, `encode_key`,
`decode_key`) and of the reader of `src/nbt.cc` (`read_val`,
`read_val_array`, `read_list`, `parse_nbt`), together with their properties.

Conventions of the embedding.

* A `std::string` / `std::string_view` holding a binary key is a `List Byte`,
  where a `Byte` is the object representation (0..255) of one `char`.
* `char` is a signed 8-bit integer, as the source itself assumes when it
  stores `-1` in `chunk_t::subtag` and later tests `chunk.subtag != -1`.
  `charVal` gives the numeric value of the `char` stored in a byte.
* `int` is 32 bits wide and the host is little-endian, so that
  `memcpy(&ret.x, key.data(), 4)` reads a little-endian two's complement
  integer; integers are `Int`/`Nat` with explicit reductions modulo `2^32`
  and `2^8`.
* Text (the `@dimension:x:z:tag-subtag` form) is a `List Char`.
* `percent_encode` / `percent_decode` come from `perenc.hpp`; they are
  parameters of `encode_key` and `decode_key`.
-/

namespace mcberepair

/-- One byte of a key: the object representation of a `char`. -/
abbrev Byte := Fin 256

/-- The byte with representation `n mod 256`. -/
def byteOf (n : Nat) : Byte := ⟨n % 256, Nat.mod_lt n (by decide)⟩

/-- Numeric value of the (signed) `char` whose object representation is `b`. -/
def charVal (b : Byte) : Int := if b.val < 128 then (b.val : Int) else (b.val : Int) - 256

/-- Conversion of an integer to `char`: reduction modulo 256 into `-128..127`. -/
def to_char (v : Int) : Int := (v + 128) % 256 - 128

/-- Object representation of a `char` value. -/
def charByte (c : Int) : Byte := byteOf (c % 256).toNat

/-- The conversion `static_cast<unsigned int>(c)` of a `char`. -/
def to_uint (c : Int) : Nat := (c % 4294967296).toNat

/-- Conversion of a 32-bit pattern to `int`. -/
def to_int32 (u : Nat) : Int :=
  if u % 4294967296 < 2147483648 then ((u % 4294967296 : Nat) : Int)
  else ((u % 4294967296 : Nat) : Int) - 4294967296

/-- The four bytes `memcpy(buffer, &v, 4)` writes for an `int v`. -/
def put_int32 (v : Int) : List Byte :=
  let u := (v % 4294967296).toNat
  [byteOf u, byteOf (u / 256), byteOf (u / 65536), byteOf (u / 16777216)]

/-- The `int` that `memcpy(&v, key.data() + off, 4)` reads. -/
def get_int32 (key : List Byte) (off : Nat) : Int :=
  to_int32 ((key.getD off 0).val + 256 * (key.getD (off + 1) 0).val
    + 65536 * (key.getD (off + 2) 0).val + 16777216 * (key.getD (off + 3) 0).val)

/-- The lambda `tag_test` of `is_chunk_key`, applied to a `char`. -/
def tag_test (tag : Byte) : Bool :=
  (decide (45 ≤ charVal tag) && decide (charVal tag ≤ 58)) || decide (charVal tag = 118)

/-- Embedding of `is_chunk_key`. -/
def is_chunk_key (key : List Byte) : Bool :=
  if key.length = 9 ∨ key.length = 10 then tag_test (key.getD 8 0)
  else if key.length = 13 ∨ key.length = 14 then tag_test (key.getD 12 0)
  else false

/-- Embedding of `struct chunk_t`: each field holds the numeric value of the
C++ member (`int` for the first three, `char` for `tag` and `subtag`). -/
structure chunk_t where
  dimension : Int
  x : Int
  z : Int
  tag : Int
  subtag : Int
  deriving DecidableEq

/-- The values a `chunk_t` object can hold: 32-bit `int`s and signed `char`s. -/
def chunk_t.inRange (r : chunk_t) : Prop :=
  (-2147483648 ≤ r.dimension ∧ r.dimension ≤ 2147483647) ∧
  (-2147483648 ≤ r.x ∧ r.x ≤ 2147483647) ∧
  (-2147483648 ≤ r.z ∧ r.z ≤ 2147483647) ∧
  (-128 ≤ r.tag ∧ r.tag ≤ 127) ∧ (-128 ≤ r.subtag ∧ r.subtag ≤ 127)

instance (r : chunk_t) : Decidable r.inRange := by
  unfold chunk_t.inRange
  infer_instance

/-- Embedding of `parse_chunk_key`; `none` is the failed
`assert(is_chunk_key(key))`. The last `else` (no length matches, `tag` and
`subtag` left unset) is not reachable for a chunk key. -/
def parse_chunk_key (key : List Byte) : Option chunk_t :=
  if is_chunk_key key then
    let x := get_int32 key 0
    let z := get_int32 key 4
    if key.length = 9 then
      some ⟨0, x, z, charVal (key.getD 8 0), -1⟩
    else if key.length = 10 then
      some ⟨0, x, z, charVal (key.getD 8 0), charVal (key.getD 9 0)⟩
    else if key.length = 13 then
      some ⟨get_int32 key 8, x, z, charVal (key.getD 12 0), -1⟩
    else if key.length = 14 then
      some ⟨get_int32 key 8, x, z, charVal (key.getD 12 0), charVal (key.getD 13 0)⟩
    else
      some ⟨0, x, z, 0, 0⟩
  else none

/-- Embedding of `create_chunk_key`. -/
def create_chunk_key (chunk : chunk_t) : List Byte :=
  put_int32 chunk.x ++ put_int32 chunk.z
    ++ (if chunk.dimension ≠ 0 then put_int32 chunk.dimension else [])
    ++ [charByte chunk.tag]
    ++ (if chunk.subtag ≠ -1 then [charByte chunk.subtag] else [])

/-! ### Text output: `operator<<` on a `std::stringstream` -/

/-- Characters written by `str << n` for an `unsigned int`: decimal digits. -/
def put_unsigned (n : Nat) : List Char := Nat.toDigits 10 n

/-- Characters written by `str << v` for an `int`: decimal digits, with a
leading minus sign when `v` is negative. -/
def put_int (v : Int) : List Char :=
  if v < 0 then '-' :: Nat.toDigits 10 v.natAbs else Nat.toDigits 10 v.toNat

/-- Embedding of `encode_key`; `percent_encode` is the routine of `perenc.hpp`.
The branch `none` is not reachable: the assertion of `parse_chunk_key` holds
after the test of `is_chunk_key`. -/
def encode_key (percent_encode : List Byte → List Char) (key : List Byte) : List Char :=
  if !is_chunk_key key then percent_encode key
  else
    match parse_chunk_key key with
    | none => []
    | some chunk =>
      '@' :: put_int chunk.dimension
        ++ ':' :: put_int chunk.x
        ++ ':' :: put_int chunk.z
        ++ ':' :: put_unsigned (to_uint chunk.tag)
        ++ (if chunk.subtag ≠ -1 then '-' :: put_unsigned (to_uint chunk.subtag) else [])

/-! ### Text input: `operator>>`, `peek` and `ignore` on a `std::stringstream` -/

/-- The function `std::isspace` in the "C" locale: space and `\t \n \v \f \r`. -/
def isspace (c : Char) : Bool := c.toNat = 32 || (9 ≤ c.toNat && c.toNat ≤ 13)

/-- A decimal digit. -/
def isdigit (c : Char) : Bool := 48 ≤ c.toNat && c.toNat ≤ 57

/-- Value of a run of decimal digits. -/
def digits_value (ds : List Char) : Nat :=
  ds.foldl (fun a c => 10 * a + (c.toNat - 48)) 0

/-- State of an input stream: the characters not yet read and the two state
bits the key decoder can observe (`badbit` is never set on a string stream). -/
structure istream where
  buf : List Char
  eofbit : Bool
  failbit : Bool
  deriving DecidableEq

/-- The member `good()`. -/
def istream.good (s : istream) : Bool := !s.eofbit && !s.failbit

/-- Construction of the `sentry` of an input function: a stream that is not
good gets `failbit`; otherwise, unless `noskipws`, leading white space is
discarded, and reaching the end while doing so sets `eofbit` and `failbit`. -/
def istream.sentry (s : istream) (noskipws : Bool) : istream :=
  if !s.good then ⟨s.buf, s.eofbit, true⟩
  else if noskipws then s
  else
    let rest := s.buf.dropWhile isspace
    if rest.isEmpty then ⟨[], true, true⟩ else ⟨rest, s.eofbit, s.failbit⟩

/-- The member `peek()`: the next character without extracting it, `none`
for `traits::eof()`. -/
def istream.peek (s : istream) : istream × Option Char :=
  let s1 := s.sentry true
  if s1.good then
    match s1.buf with
    | [] => (⟨[], true, s1.failbit⟩, none)
    | c :: _ => (s1, some c)
  else (s1, none)

/-- The member `ignore()`: extracts and discards one character. -/
def istream.ignore (s : istream) : istream :=
  let s1 := s.sentry true
  if s1.good then
    match s1.buf with
    | [] => ⟨[], true, s1.failbit⟩
    | _ :: r => ⟨r, s1.eofbit, s1.failbit⟩
  else s1

/-- The statement `if(str.peek() == c) str.ignore();`. -/
def istream.ignore_if (s : istream) (c : Char) : istream :=
  let (s1, p) := s.peek
  if p = some c then s1.ignore else s1

/-- The optional sign accumulated by `num_get`: whether it is a minus sign,
and the characters after it. -/
def scan_sign (cs : List Char) : Bool × List Char :=
  match cs with
  | [] => (false, [])
  | c :: r => if c = '-' then (true, r) else if c = '+' then (false, r) else (false, c :: r)

/-- The extraction `str >> v` for an `int v`: after the sentry, an optional
sign and the longest run of decimal digits are accumulated; `eofbit` is set
when the end of the text is reached; the extraction fails (`failbit`, here
with the value `none`) when there is no digit or the number is not
representable in 32 bits. `!(str >> v)` is `none` in the second component. -/
def istream.extract_int (s : istream) : istream × Option Int :=
  let s1 := s.sentry false
  if s1.good then
    let sb := scan_sign s1.buf
    let ds := sb.2.takeWhile isdigit
    let rest := sb.2.dropWhile isdigit
    if ds.isEmpty then (⟨rest, rest.isEmpty, true⟩, none)
    else
      let v : Int := if sb.1 then -(digits_value ds : Int) else (digits_value ds : Int)
      if v < -2147483648 ∨ 2147483647 < v then (⟨rest, rest.isEmpty, true⟩, none)
      else (⟨rest, rest.isEmpty, false⟩, some v)
  else (s1, none)

/-- The extraction `str >> v` for an `unsigned int v`: as for `int`, with the
magnitude bounded by `2^32 - 1` and a minus sign negating modulo `2^32`. -/
def istream.extract_unsigned (s : istream) : istream × Option Nat :=
  let s1 := s.sentry false
  if s1.good then
    let sb := scan_sign s1.buf
    let ds := sb.2.takeWhile isdigit
    let rest := sb.2.dropWhile isdigit
    if ds.isEmpty then (⟨rest, rest.isEmpty, true⟩, none)
    else
      let m := digits_value ds
      if 4294967295 < m then (⟨rest, rest.isEmpty, true⟩, none)
      else (⟨rest, rest.isEmpty, false⟩, some (if sb.1 then (4294967296 - m) % 4294967296 else m))
  else (s1, none)

/-- Embedding of `decode_key`; `percent_decode` is the routine of
`perenc.hpp`. `none` stands for the out-of-bounds read `key[0]` on an empty
`string_view`; `some []` is the empty string returned by `return {}`. -/
def decode_key (percent_decode : List Char → List Byte) (key : List Char) :
    Option (List Byte) :=
  match key with
  | [] => none
  | c :: buf =>
    if c ≠ '@' then some (percent_decode (c :: buf))
    else
      match (istream.mk buf false false).extract_int with
      | (_, none) => some []
      | (str, some dimension) =>
        match (str.ignore_if ':').extract_int with
        | (_, none) => some []
        | (str, some x) =>
          match (str.ignore_if ':').extract_int with
          | (_, none) => some []
          | (str, some z) =>
            match (str.ignore_if ':').extract_unsigned with
            | (_, none) => some []
            | (str, some tag) =>
              let p := str.peek
              if p.2 = some '-' then
                match p.1.ignore.extract_unsigned with
                | (_, none) => some []
                | (_, some subtag) =>
                  some (create_chunk_key ⟨dimension, x, z, to_char tag, to_char subtag⟩)
              else
                some (create_chunk_key ⟨dimension, x, z, to_char tag, -1⟩)

/-! ### Notions used to state the properties -/

/-- The text does not continue with a digit. -/
def no_digit_head (cs : List Char) : Prop := ∀ c ∈ cs.head?, isdigit c = false

instance (cs : List Char) : Decidable (no_digit_head cs) := by
  unfold no_digit_head
  infer_instance

/-- The bit pattern of four bytes, read as an `int`. -/
def word (a0 a1 a2 a3 : Byte) : Int :=
  to_int32 (a0.val + 256 * a1.val + 65536 * a2.val + 16777216 * a3.val)

/-- The signed 32-bit integer whose little-endian two's complement
representation is the byte sequence `bs` (four bytes). -/
def le_signed32 (bs : List Byte) : Int :=
  let u : Nat := bs.foldr (fun b acc => b.val + 256 * acc) 0
  if u < 2147483648 then (u : Int) else (u : Int) - 4294967296

/-- The decimal numeral of an integer: digits, with a leading minus sign for
a negative number. -/
def dec (v : Int) : List Char := (Int.repr v).toList

/-- The text `@<dimension>:<x>:<z>:<tag>` or `@<dimension>:<x>:<z>:<tag>-<subtag>`
with decimal numerals. -/
def key_text (dimension x z : Int) (tag : Nat) (subtag : Option Nat) : List Char :=
  '@' :: dec dimension ++ ':' :: dec x ++ ':' :: dec z ++ ':' :: dec tag
    ++ (match subtag with
        | none => []
        | some s => '-' :: dec s)

/-- The four bytes of the little-endian two's complement form of an integer. -/
def le32 (v : Int) : List Byte :=
  [byteOf (v % 256).toNat, byteOf (v / 256 % 256).toNat, byteOf (v / 65536 % 256).toNat,
    byteOf (v / 16777216 % 256).toNat]

/-- The binary key `x z [dimension if not 0] tag [subtag if present]`. -/
def record_key (dimension x z : Int) (tag : Nat) (subtag : Option Nat) : List Byte :=
  le32 x ++ le32 z ++ (if dimension ≠ 0 then le32 dimension else []) ++ [byteOf tag]
    ++ (match subtag with
        | none => []
        | some s => [byteOf s])

/-- The text begins, after optional white space, with a decimal integer: an
optional sign followed by at least one digit. -/
def begins_with_integer (cs : List Char) : Bool :=
  match cs.dropWhile isspace with
  | [] => false
  | c :: r =>
    if c = '-' ∨ c = '+' then
      match r with
      | [] => false
      | d :: _ => isdigit d
    else isdigit c

/-- The text that follows the integer at the beginning of the text. -/
def after_integer (cs : List Char) : List Char :=
  match cs.dropWhile isspace with
  | [] => []
  | c :: r => if c = '-' ∨ c = '+' then r.dropWhile isdigit else (c :: r).dropWhile isdigit

/-- The text without the colon it may start with. -/
def after_colon (cs : List Char) : List Char :=
  match cs with
  | [] => []
  | c :: r => if c = ':' then r else c :: r

/-- The text after `@` lacks one of the four fields `dimension`, `x`, `z`,
`tag` (no integer where the field is expected), or has a hyphen after the
tag that is not followed by an integer. -/
def missing_field (rest : List Char) : Bool :=
  let p1 := after_colon (after_integer rest)
  let p2 := after_colon (after_integer p1)
  let p3 := after_colon (after_integer p2)
  !begins_with_integer rest || !begins_with_integer p1 || !begins_with_integer p2
    || !begins_with_integer p3
    || (match after_integer p3 with
        | [] => false
        | c :: r => decide (c = '-') && !begins_with_integer r)

/-! ### The NBT reader of `nbt.cc`

The buffer `[first, last)` is a `List Byte`; a pointer into it is its offset
from `first`, and `nullptr` is `none`. `size_t` and pointers are 64 bits
wide. The declarations of `nbt.hpp` used by the code are not part of the
sources: the tag numbers, the node type and the element types of the array
views are modelled from the specification, and the sizes `sizeof(T)` of the
array view structures are a parameter `sizeof_T` (indexed by the tag). -/

/-- Modelled from the spec: the payload of a node of type `nbt_t` of `nbt.hpp`,
one variant per type tag. A fixed-width integer is held by its value, a
floating point number by its bit pattern, an array view by its element count
and the offset of its data, a list by its element count and element type. -/
inductive nbt_value where
  | nbt_end_t
  | int8_t (v : Int)
  | int16_t (v : Int)
  | int32_t (v : Int)
  | int64_t (v : Int)
  | float (bits : Nat)
  | double (bits : Nat)
  | nbt_byte_array_t (size : Int) (data : Nat)
  | nbt_string_t (size : Int) (data : Nat)
  | nbt_list_t (size : Int) (type : Int)
  | nbt_compound_t
  | nbt_int_array_t (size : Int) (data : Nat)
  | nbt_long_array_t (size : Int) (data : Nat)
  deriving DecidableEq

/-- Modelled from the spec: a node `nbt_t` of `nbt.hpp`, a name and a payload;
the name is `none` where the code passes `nullptr`. -/
structure nbt_t where
  name : Option (List Byte)
  value : nbt_value
  deriving DecidableEq

/-- Modelled from the spec: the width in bytes of the elements of the array
view with the given type tag (`BYTE_ARRAY` 7, `STRING` 8, `INT_ARRAY` 11,
`LONG_ARRAY` 12), which is `sizeof(std::remove_pointer_t<decltype(T::data)>)`. -/
def element_width (type : Nat) : Nat :=
  if type = 11 then 4 else if type = 12 then 8 else 1

/-- The unsigned number held little-endian in a run of bytes. -/
def le_nat (bs : List Byte) : Nat := bs.foldr (fun b acc => b.val + 256 * acc) 0

/-- The signed integer of `w` bytes with the bit pattern `u`. -/
def to_signed (w : Nat) (u : Nat) : Int :=
  if 2 * (u % 256 ^ w) < 256 ^ w then ((u % 256 ^ w : Nat) : Int)
  else ((u % 256 ^ w : Nat) : Int) - ((256 ^ w : Nat) : Int)

/-- The bytes `memcpy(&val, p, n)` reads at the offset `p`; `none` when one of
them lies outside the buffer. -/
def read_bytes (buf : List Byte) (p n : Nat) : Option (List Byte) :=
  if p + n ≤ buf.length then some ((buf.drop p).take n) else none

/-- Embedding of `read_val<T>` for a type `T` of `w` bytes whose node payload
is built by `mk` from the bit pattern: the new pointer (`none` for `nullptr`)
and the vector of nodes. The outer `none` is a failed assertion or a read
outside the buffer. -/
def read_val (w : Nat) (mk : Nat → nbt_value) (buf : List Byte) (first : Nat)
    (name : List Byte) (v : List nbt_t) : Option (Option Nat × List nbt_t) :=
  if buf.length < first then none
  else if buf.length - first < w then some (none, v)
  else
    match read_bytes buf first w with
    | none => none
    | some bs => some (some (first + w), v ++ [⟨some name, mk (le_nat bs)⟩])

/-- Embedding of `read_val_array<T>`: `w` is the width of an element,
`size_T` is `sizeof(T)` and `mk` builds the view from the count and the
offset of the data. The count is converted to `size_t` in the comparison and
in the pointer arithmetic. -/
def read_val_array (w size_T : Nat) (mk : Int → Nat → nbt_value) (buf : List Byte)
    (first : Nat) (name : List Byte) (v : List nbt_t) : Option (Option Nat × List nbt_t) :=
  if buf.length < first then none
  else if buf.length - first < 4 then some (none, v)
  else
    match read_bytes buf first 4 with
    | none => none
    | some bs =>
      let array_size : Int := to_signed 4 (le_nat bs)
      let first := first + 4
      if buf.length - first < (w * (array_size % 18446744073709551616).toNat)
          % 18446744073709551616 then some (none, v)
      else
        some (some (first + (size_T * (array_size % 18446744073709551616).toNat)
            % 18446744073709551616),
          v ++ [⟨some name, mk array_size first⟩])

/-- Embedding of `read_list`. -/
def read_list (buf : List Byte) (first : Nat) (name : List Byte) (v : List nbt_t) :
    Option (Option Nat × List nbt_t) :=
  if buf.length < first then none
  else if buf.length - first < 1 then some (none, v)
  else
    match read_bytes buf first 1 with
    | none => none
    | some bt =>
      let list_type : Int := to_signed 1 (le_nat bt)
      let first := first + 1
      if buf.length - first < 4 then some (none, v)
      else
        match read_bytes buf first 4 with
        | none => none
        | some bs =>
          some (some (first + 4),
            v ++ [⟨some name, nbt_value.nbt_list_t (to_signed 4 (le_nat bs)) list_type⟩])

/-- What the `switch` of `parse_nbt` does: a read outside the buffer, the
`return false` of a case, or the `break` with the new value of `p`. -/
inductive switch_result where
  | fault
  | return_false (v : List nbt_t)
  | break_ (p : Option Nat) (v : List nbt_t)
  deriving DecidableEq

/-- A case `p = read(...); break;` of the `switch`: the call, the assignment
to `p` and the `break`. -/
def switch_assign (r : Option (Option Nat × List nbt_t)) : switch_result :=
  match r with
  | none => switch_result.fault
  | some (p1, v1) => switch_result.break_ p1 v1

/-- Embedding of the `switch` on the type tag in `parse_nbt` (tag numbers
modelled from the spec: `BYTE` 1, `SHORT` 2, `INT` 3, `LONG` 4, `FLOAT` 5,
`DOUBLE` 6, `BYTE_ARRAY` 7, `STRING` 8, `LIST` 9, `COMPOUND` 10,
`INT_ARRAY` 11, `LONG_ARRAY` 12). The statement `todo;` of the `LIST` case
has no effect. -/
def nbt_switch (sizeof_T : Nat → Nat) (buf : List Byte) (type : Nat) (p : Nat)
    (name : List Byte) (v : List nbt_t) : switch_result :=
  match type with
  | 1 => switch_assign (read_val 1 (fun u => nbt_value.int8_t (to_signed 1 u)) buf p name v)
  | 2 => switch_assign (read_val 2 (fun u => nbt_value.int16_t (to_signed 2 u)) buf p name v)
  | 3 => switch_assign (read_val 4 (fun u => nbt_value.int32_t (to_signed 4 u)) buf p name v)
  | 4 => switch_assign (read_val 8 (fun u => nbt_value.int64_t (to_signed 8 u)) buf p name v)
  | 5 => switch_assign (read_val 4 nbt_value.float buf p name v)
  | 6 => switch_assign (read_val 8 nbt_value.double buf p name v)
  | 7 => switch_assign (read_val_array (element_width 7) (sizeof_T 7) nbt_value.nbt_byte_array_t
      buf p name v)
  | 8 => switch_assign (read_val_array (element_width 8) (sizeof_T 8) nbt_value.nbt_string_t
      buf p name v)
  | 11 => switch_assign (read_val_array (element_width 11) (sizeof_T 11) nbt_value.nbt_int_array_t
      buf p name v)
  | 12 => switch_assign (read_val_array (element_width 12) (sizeof_T 12) nbt_value.nbt_long_array_t
      buf p name v)
  | 10 => switch_result.break_ (some p) (v ++ [⟨none, nbt_value.nbt_compound_t⟩])
  | 9 =>
    match read_list buf p name v with
    | none => switch_result.fault
    | some (none, v1) => switch_result.return_false v1
    | some (some p1, v1) => switch_result.break_ (some p1) v1
  | _ => switch_result.return_false v

/-- How a run of `parse_nbt` ends: it returns a value, with the nodes in
`nbt_data` and the pointer `p` at that moment; or it reads outside the buffer
or fails an assertion; or the embedding runs out of fuel. -/
inductive outcome where
  | returned (value : Bool) (nbt_data : List nbt_t) (p : Option Nat)
  | fault
  | out_of_fuel
  deriving DecidableEq

/-- Embedding of the loop `while(p < last)` of `parse_nbt` and of the
`return true` after it; `fuel` bounds the number of iterations. -/
def nbt_loop (sizeof_T : Nat → Nat) (buf : List Byte) :
    Nat → Nat → List nbt_t → outcome
  | 0, _, _ => outcome.out_of_fuel
  | fuel + 1, p, v =>
    if p < buf.length then
      match buf[p]? with
      | none => outcome.fault
      | some type =>
        if type.val = 0 then
          nbt_loop sizeof_T buf fuel (p + 1) (v ++ [⟨none, nbt_value.nbt_end_t⟩])
        else if buf.length - (p + 1) < 2 then outcome.returned false v (some (p + 1))
        else
          match read_bytes buf (p + 1) 2 with
          | none => outcome.fault
          | some nl =>
            if buf.length - (p + 3) < le_nat nl then outcome.returned false v (some (p + 3))
            else
              match nbt_switch sizeof_T buf type.val (p + 3)
                  ((buf.drop (p + 3)).take (le_nat nl)) v with
              | switch_result.fault => outcome.fault
              | switch_result.return_false v1 => outcome.returned false v1 (some (p + 3))
              | switch_result.break_ none v1 => outcome.returned false v1 none
              | switch_result.break_ (some p1) v1 => nbt_loop sizeof_T buf fuel p1 v1
    else outcome.returned true v (some p)

/-- Embedding of `parse_nbt`, with the nodes read and the final pointer. Each
iteration of the loop moves `p` forward, so that the length of the buffer
bounds the number of iterations. -/
def parse_nbt_run (sizeof_T : Nat → Nat) (buf : List Byte) : outcome :=
  if buf.length = 0 then outcome.returned true [] (some 0)
  else nbt_loop sizeof_T buf (buf.length + 1) 0 []

/-- The value returned at the end of a run; `none` when the run does not return. -/
def outcome.value : outcome → Option Bool
  | outcome.returned b _ _ => some b
  | outcome.fault => none
  | outcome.out_of_fuel => none

/-- The value `parse_nbt` returns; `none` when the run does not return. -/
def parse_nbt (sizeof_T : Nat → Nat) (buf : List Byte) : Option Bool :=
  (parse_nbt_run sizeof_T buf).value

/-- What the `switch` does, without the vector of nodes: `none` for a read
outside the buffer, `some none` for `return false`, and otherwise the value
of `p` at the `break`. -/
def switch_result.kind : switch_result → Option (Option (Option Nat))
  | switch_result.fault => none
  | switch_result.return_false _ => some none
  | switch_result.break_ p _ => some (some p)


/-! ## Recognising chunk keys -/

/-- The tag test in terms of the unsigned value of the byte. -/
theorem tag_test_iff (b : Byte) :
    tag_test b = true ↔ ((45 ≤ b.val ∧ b.val ≤ 58) ∨ b.val = 118) := by
  have hb := b.isLt
  unfold tag_test charVal
  split <;> simp only [Bool.or_eq_true, Bool.and_eq_true, decide_eq_true_eq] <;> omega

/-- A byte with the high bit set never passes the tag test. -/
theorem tag_test_high (b : Byte) (h : 128 ≤ b.val) : tag_test b = false := by
  have := tag_test_iff b
  cases hb : tag_test b
  · rfl
  · rw [hb] at this
    have := this.mp rfl
    omega

/-- Reading an in-bounds element with a default. -/
theorem getD_eq_of_getElem? (key : List Byte) (i : Nat) (b : Byte)
    (h : key[i]? = some b) : key.getD i 0 = b := by
  simp [List.getD, h]

/-- An in-bounds element exists. -/
theorem getElem?_of_lt (key : List Byte) (i : Nat) (h : i < key.length) :
    key[i]? = some (key.getD i 0) := by
  simp [List.getD, List.getElem?_eq_getElem h]

/-- C1. `is_chunk_key key` holds exactly when the length is 9 or 10 and byte 8
lies in `[45,58]` or equals 118, or the length is 13 or 14 and byte 12 does;
it is false for every other length and whenever the byte at the tag position
has its high bit set. -/
theorem is_chunk_key_iff (key : List Byte) :
    (is_chunk_key key = true ↔
      (((key.length = 9 ∨ key.length = 10) ∧
          ∃ b : Byte, key[8]? = some b ∧ ((45 ≤ b.val ∧ b.val ≤ 58) ∨ b.val = 118)) ∨
       ((key.length = 13 ∨ key.length = 14) ∧
          ∃ b : Byte, key[12]? = some b ∧ ((45 ≤ b.val ∧ b.val ≤ 58) ∨ b.val = 118)))) ∧
    ((key.length ≠ 9 ∧ key.length ≠ 10 ∧ key.length ≠ 13 ∧ key.length ≠ 14) →
      is_chunk_key key = false) ∧
    (∀ b : Byte, 128 ≤ b.val →
      (((key.length = 9 ∨ key.length = 10) ∧ key[8]? = some b) ∨
       ((key.length = 13 ∨ key.length = 14) ∧ key[12]? = some b)) →
      is_chunk_key key = false) := by
  refine ⟨?_, ?_, ?_⟩
  · unfold is_chunk_key
    by_cases h1 : key.length = 9 ∨ key.length = 10
    · have h8 : 8 < key.length := by omega
      have hg := getElem?_of_lt key 8 h8
      rw [if_pos h1, tag_test_iff]
      constructor
      · intro h
        exact Or.inl ⟨h1, _, hg, h⟩
      · rintro (⟨_, b, hb, h⟩ | ⟨h2, _⟩)
        · rw [hg] at hb
          cases hb
          exact h
        · omega
    · rw [if_neg h1]
      by_cases h2 : key.length = 13 ∨ key.length = 14
      · have h12 : 12 < key.length := by omega
        have hg := getElem?_of_lt key 12 h12
        rw [if_pos h2, tag_test_iff]
        constructor
        · intro h
          exact Or.inr ⟨h2, _, hg, h⟩
        · rintro (⟨h1', _⟩ | ⟨_, b, hb, h⟩)
          · exact absurd h1' h1
          · rw [hg] at hb
            cases hb
            exact h
      · rw [if_neg h2]
        simp only [Bool.false_eq_true, false_iff]
        rintro (⟨h, _⟩ | ⟨h, _⟩)
        · exact h1 h
        · exact h2 h
  · rintro ⟨h9, h10, h13, h14⟩
    unfold is_chunk_key
    rw [if_neg (by omega), if_neg (by omega)]
  · intro b hb h
    unfold is_chunk_key
    rcases h with ⟨hl, hg⟩ | ⟨hl, hg⟩
    · rw [if_pos hl, getD_eq_of_getElem? key 8 b hg, tag_test_high b hb]
    · rw [if_neg (by omega), if_pos hl, getD_eq_of_getElem? key 12 b hg, tag_test_high b hb]

/-- C1 at concrete keys: a 9-byte key with tag 45 is a chunk key, an 8-byte
buffer is not, and a 9-byte buffer whose byte 8 is `0x80` is not. -/
theorem is_chunk_key_iff_witness :
    is_chunk_key [1, 0, 0, 0, 2, 0, 0, 0, 45] = true ∧
    is_chunk_key [1, 0, 0, 0, 2, 0, 0, 0] = false ∧
    is_chunk_key [1, 0, 0, 0, 2, 0, 0, 0, 128] = false :=
  ⟨(is_chunk_key_iff [1, 0, 0, 0, 2, 0, 0, 0, 45]).1.mpr
      (Or.inl ⟨Or.inl rfl, 45, rfl, Or.inl (by decide)⟩),
   (is_chunk_key_iff [1, 0, 0, 0, 2, 0, 0, 0]).2.1 (by decide),
   (is_chunk_key_iff [1, 0, 0, 0, 2, 0, 0, 0, 128]).2.2 128 (by decide)
      (Or.inl ⟨Or.inl rfl, rfl⟩)⟩



/-! ## The four shapes of a chunk key -/

/-- A list of length nine. -/
theorem length_nine {α : Type} (l : List α) (h : l.length = 9) :
    ∃ a0 a1 a2 a3 a4 a5 a6 a7 a8, l = [a0, a1, a2, a3, a4, a5, a6, a7, a8] := by
  match l, h with
  | [a0, a1, a2, a3, a4, a5, a6, a7, a8], _ => exact ⟨_, _, _, _, _, _, _, _, _, rfl⟩

/-- A list of length ten. -/
theorem length_ten {α : Type} (l : List α) (h : l.length = 10) :
    ∃ a0 a1 a2 a3 a4 a5 a6 a7 a8 a9, l = [a0, a1, a2, a3, a4, a5, a6, a7, a8, a9] := by
  match l, h with
  | [a0, a1, a2, a3, a4, a5, a6, a7, a8, a9], _ => exact ⟨_, _, _, _, _, _, _, _, _, _, rfl⟩

/-- A list of length thirteen. -/
theorem length_thirteen {α : Type} (l : List α) (h : l.length = 13) :
    ∃ a0 a1 a2 a3 a4 a5 a6 a7 a8 a9 a10 a11 a12,
      l = [a0, a1, a2, a3, a4, a5, a6, a7, a8, a9, a10, a11, a12] := by
  match l, h with
  | [a0, a1, a2, a3, a4, a5, a6, a7, a8, a9, a10, a11, a12], _ =>
    exact ⟨_, _, _, _, _, _, _, _, _, _, _, _, _, rfl⟩

/-- A list of length fourteen. -/
theorem length_fourteen {α : Type} (l : List α) (h : l.length = 14) :
    ∃ a0 a1 a2 a3 a4 a5 a6 a7 a8 a9 a10 a11 a12 a13,
      l = [a0, a1, a2, a3, a4, a5, a6, a7, a8, a9, a10, a11, a12, a13] := by
  match l, h with
  | [a0, a1, a2, a3, a4, a5, a6, a7, a8, a9, a10, a11, a12, a13], _ =>
    exact ⟨_, _, _, _, _, _, _, _, _, _, _, _, _, _, rfl⟩

/-- A chunk key has one of four shapes, and its tag byte passes the tag test. -/
theorem chunk_key_shape (key : List Byte) (h : is_chunk_key key = true) :
    (∃ a0 a1 a2 a3 a4 a5 a6 a7 t, key = [a0, a1, a2, a3, a4, a5, a6, a7, t] ∧ tag_test t = true) ∨
    (∃ a0 a1 a2 a3 a4 a5 a6 a7 t s,
      key = [a0, a1, a2, a3, a4, a5, a6, a7, t, s] ∧ tag_test t = true) ∨
    (∃ a0 a1 a2 a3 a4 a5 a6 a7 d0 d1 d2 d3 t,
      key = [a0, a1, a2, a3, a4, a5, a6, a7, d0, d1, d2, d3, t] ∧ tag_test t = true) ∨
    (∃ a0 a1 a2 a3 a4 a5 a6 a7 d0 d1 d2 d3 t s,
      key = [a0, a1, a2, a3, a4, a5, a6, a7, d0, d1, d2, d3, t, s] ∧ tag_test t = true) := by
  unfold is_chunk_key at h
  by_cases h9 : key.length = 9
  · obtain ⟨a0, a1, a2, a3, a4, a5, a6, a7, t, rfl⟩ := length_nine key h9
    exact Or.inl ⟨a0, a1, a2, a3, a4, a5, a6, a7, t, rfl, by simpa using h⟩
  by_cases h10 : key.length = 10
  · obtain ⟨a0, a1, a2, a3, a4, a5, a6, a7, t, s, rfl⟩ := length_ten key h10
    exact Or.inr (Or.inl ⟨a0, a1, a2, a3, a4, a5, a6, a7, t, s, rfl, by simpa using h⟩)
  by_cases h13 : key.length = 13
  · obtain ⟨a0, a1, a2, a3, a4, a5, a6, a7, d0, d1, d2, d3, t, rfl⟩ := length_thirteen key h13
    exact Or.inr (Or.inr (Or.inl
      ⟨a0, a1, a2, a3, a4, a5, a6, a7, d0, d1, d2, d3, t, rfl, by simpa using h⟩))
  by_cases h14 : key.length = 14
  · obtain ⟨a0, a1, a2, a3, a4, a5, a6, a7, d0, d1, d2, d3, t, s, rfl⟩ :=
      length_fourteen key h14
    exact Or.inr (Or.inr (Or.inr
      ⟨a0, a1, a2, a3, a4, a5, a6, a7, d0, d1, d2, d3, t, s, rfl, by simpa using h⟩))
  rw [if_neg (by omega), if_neg (by omega)] at h
  exact absurd h (by decide)

/-- Parsing a 9-byte chunk key. -/
theorem parse_nine (a0 a1 a2 a3 a4 a5 a6 a7 t : Byte) (ht : tag_test t = true) :
    parse_chunk_key [a0, a1, a2, a3, a4, a5, a6, a7, t]
      = some ⟨0, word a0 a1 a2 a3, word a4 a5 a6 a7, charVal t, -1⟩ := by
  simp [parse_chunk_key, is_chunk_key, get_int32, word, ht]

/-- Parsing a 10-byte chunk key. -/
theorem parse_ten (a0 a1 a2 a3 a4 a5 a6 a7 t s : Byte) (ht : tag_test t = true) :
    parse_chunk_key [a0, a1, a2, a3, a4, a5, a6, a7, t, s]
      = some ⟨0, word a0 a1 a2 a3, word a4 a5 a6 a7, charVal t, charVal s⟩ := by
  simp [parse_chunk_key, is_chunk_key, get_int32, word, ht]

/-- Parsing a 13-byte chunk key. -/
theorem parse_thirteen (a0 a1 a2 a3 a4 a5 a6 a7 d0 d1 d2 d3 t : Byte)
    (ht : tag_test t = true) :
    parse_chunk_key [a0, a1, a2, a3, a4, a5, a6, a7, d0, d1, d2, d3, t]
      = some ⟨word d0 d1 d2 d3, word a0 a1 a2 a3, word a4 a5 a6 a7, charVal t, -1⟩ := by
  simp [parse_chunk_key, is_chunk_key, get_int32, word, ht]

/-- Parsing a 14-byte chunk key. -/
theorem parse_fourteen (a0 a1 a2 a3 a4 a5 a6 a7 d0 d1 d2 d3 t s : Byte)
    (ht : tag_test t = true) :
    parse_chunk_key [a0, a1, a2, a3, a4, a5, a6, a7, d0, d1, d2, d3, t, s]
      = some ⟨word d0 d1 d2 d3, word a0 a1 a2 a3, word a4 a5 a6 a7, charVal t, charVal s⟩ := by
  simp [parse_chunk_key, is_chunk_key, get_int32, word, ht]

/-- The bit pattern read by `memcpy` is the little-endian signed integer. -/
theorem word_eq_le_signed32 (a0 a1 a2 a3 : Byte) :
    word a0 a1 a2 a3 = le_signed32 [a0, a1, a2, a3] := by
  have h0 := a0.isLt
  have h1 := a1.isLt
  have h2 := a2.isLt
  have h3 := a3.isLt
  simp only [word, to_int32, le_signed32, List.foldr]
  have hlt : a0.val + 256 * a1.val + 65536 * a2.val + 16777216 * a3.val < 4294967296 := by omega
  rw [Nat.mod_eq_of_lt hlt]
  have he : a0.val + 256 * (a1.val + 256 * (a2.val + 256 * (a3.val + 256 * 0)))
      = a0.val + 256 * a1.val + 65536 * a2.val + 16777216 * a3.val := by omega
  rw [he]

/-- A byte that passes the tag test is a non-negative `char`. -/
theorem charVal_of_tag_test (t : Byte) (ht : tag_test t = true) : charVal t = (t.val : Int) := by
  have := (tag_test_iff t).mp ht
  unfold charVal
  rw [if_pos (by omega)]


/-! ## Bytes and integers -/

/-- Value of `byteOf`. -/
theorem byteOf_val (n : Nat) : (byteOf n).val = n % 256 := rfl

/-- Reading back the four bytes written for an `int` gives the `int`. -/
theorem word_put (v : Int) (h1 : -2147483648 ≤ v) (h2 : v ≤ 2147483647) :
    word (byteOf (v % 4294967296).toNat) (byteOf ((v % 4294967296).toNat / 256))
      (byteOf ((v % 4294967296).toNat / 65536)) (byteOf ((v % 4294967296).toNat / 16777216))
      = v := by
  simp only [word, to_int32, byteOf_val]
  split <;> omega

/-- Writing the `int` read from four bytes gives the four bytes back. -/
theorem put_word (a0 a1 a2 a3 : Byte) : put_int32 (word a0 a1 a2 a3) = [a0, a1, a2, a3] := by
  have h0 := a0.isLt
  have h1 := a1.isLt
  have h2 := a2.isLt
  have h3 := a3.isLt
  have e0 : byteOf ((word a0 a1 a2 a3) % 4294967296).toNat = a0 := by
    apply Fin.ext
    simp only [word, to_int32, byteOf_val]
    split <;> omega
  have e1 : byteOf (((word a0 a1 a2 a3) % 4294967296).toNat / 256) = a1 := by
    apply Fin.ext
    simp only [word, to_int32, byteOf_val]
    split <;> omega
  have e2 : byteOf (((word a0 a1 a2 a3) % 4294967296).toNat / 65536) = a2 := by
    apply Fin.ext
    simp only [word, to_int32, byteOf_val]
    split <;> omega
  have e3 : byteOf (((word a0 a1 a2 a3) % 4294967296).toNat / 16777216) = a3 := by
    apply Fin.ext
    simp only [word, to_int32, byteOf_val]
    split <;> omega
  simp only [put_int32, e0, e1, e2, e3]

/-- The `int` read from four bytes is a 32-bit value. -/
theorem word_range (a0 a1 a2 a3 : Byte) :
    -2147483648 ≤ word a0 a1 a2 a3 ∧ word a0 a1 a2 a3 ≤ 2147483647 := by
  simp only [word, to_int32]
  split <;> omega

/-- The `int` read from four bytes is zero only for four zero bytes. -/
theorem word_eq_zero (a0 a1 a2 a3 : Byte) (h : word a0 a1 a2 a3 = 0) :
    a0 = 0 ∧ a1 = 0 ∧ a2 = 0 ∧ a3 = 0 := by
  have h0 := a0.isLt
  have h1 := a1.isLt
  have h2 := a2.isLt
  have h3 := a3.isLt
  simp only [word, to_int32] at h
  refine ⟨Fin.ext ?_, Fin.ext ?_, Fin.ext ?_, Fin.ext ?_⟩ <;> simp only [Fin.val_zero] <;>
    split at h <;> omega

/-- The `char` stored in the byte written for a `char` value. -/
theorem charVal_charByte (c : Int) (h1 : -128 ≤ c) (h2 : c ≤ 127) : charVal (charByte c) = c := by
  simp only [charVal, charByte, byteOf_val]
  split <;> omega

/-- The byte written for the `char` stored in a byte. -/
theorem charByte_charVal (b : Byte) : charByte (charVal b) = b := by
  have hb := b.isLt
  apply Fin.ext
  simp only [charVal, charByte, byteOf_val]
  split <;> omega

/-- The `char` stored in a byte is a signed 8-bit value. -/
theorem charVal_range (b : Byte) : -128 ≤ charVal b ∧ charVal b ≤ 127 := by
  have hb := b.isLt
  simp only [charVal]
  split <;> omega

/-- The `char` stored in a byte is `-1` only for the byte `0xFF`. -/
theorem charVal_eq_neg_one (b : Byte) : charVal b = -1 ↔ b.val = 255 := by
  have hb := b.isLt
  simp only [charVal]
  split <;> omega

/-- The byte written for a tag value passes the tag test. -/
theorem tag_test_charByte (t : Int) (h : (45 ≤ t ∧ t ≤ 58) ∨ t = 118) :
    tag_test (charByte t) = true := by
  rw [tag_test_iff]
  simp only [charByte, byteOf_val]
  omega


/-! ## Parsing and creating chunk keys -/

/-- C2. For a chunk key, `parse_chunk_key` returns a record whose `x` and `z`
are the signed little-endian 32-bit integers of bytes `[0,4)` and `[4,8)`,
whose `dimension` is 0 for the lengths 9 and 10 and the signed little-endian
integer of bytes `[8,12)` for the lengths 13 and 14, whose `tag` is byte 8
(lengths 9, 10) or byte 12 (lengths 13, 14), and whose `subtag` is `-1` for the
lengths 9 and 13 and the byte after the tag for the lengths 10 and 14, held
in the `char` field as the `char` the key stores. -/
theorem parse_chunk_key_fields (key : List Byte) (h : is_chunk_key key = true) :
    ∃ r : chunk_t, parse_chunk_key key = some r ∧
      r.x = le_signed32 (key.take 4) ∧
      r.z = le_signed32 ((key.drop 4).take 4) ∧
      ((key.length = 9 ∨ key.length = 10) →
        r.dimension = 0 ∧ r.tag = ((key.getD 8 0).val : Int)) ∧
      ((key.length = 13 ∨ key.length = 14) →
        r.dimension = le_signed32 ((key.drop 8).take 4) ∧
        r.tag = ((key.getD 12 0).val : Int)) ∧
      ((key.length = 9 ∨ key.length = 13) → r.subtag = -1) ∧
      (key.length = 10 → r.subtag = charVal (key.getD 9 0)) ∧
      (key.length = 14 → r.subtag = charVal (key.getD 13 0)) := by
  rcases chunk_key_shape key h with
    ⟨a0, a1, a2, a3, a4, a5, a6, a7, t, rfl, ht⟩ |
    ⟨a0, a1, a2, a3, a4, a5, a6, a7, t, s, rfl, ht⟩ |
    ⟨a0, a1, a2, a3, a4, a5, a6, a7, d0, d1, d2, d3, t, rfl, ht⟩ |
    ⟨a0, a1, a2, a3, a4, a5, a6, a7, d0, d1, d2, d3, t, s, rfl, ht⟩
  · refine ⟨_, parse_nine a0 a1 a2 a3 a4 a5 a6 a7 t ht, ?_⟩
    simp [word_eq_le_signed32, charVal_of_tag_test t ht]
  · refine ⟨_, parse_ten a0 a1 a2 a3 a4 a5 a6 a7 t s ht, ?_⟩
    simp [word_eq_le_signed32, charVal_of_tag_test t ht]
  · refine ⟨_, parse_thirteen a0 a1 a2 a3 a4 a5 a6 a7 d0 d1 d2 d3 t ht, ?_⟩
    simp [word_eq_le_signed32, charVal_of_tag_test t ht]
  · refine ⟨_, parse_fourteen a0 a1 a2 a3 a4 a5 a6 a7 d0 d1 d2 d3 t s ht, ?_⟩
    simp [word_eq_le_signed32, charVal_of_tag_test t ht]

/-- C2 at the key `01 00 00 00 02 00 00 00 2D`, which parses to
`{dimension 0, x 1, z 2, tag 45, subtag -1}`. -/
theorem parse_chunk_key_fields_witness :
    is_chunk_key [1, 0, 0, 0, 2, 0, 0, 0, 0x2D] = true ∧
    (∃ r : chunk_t, parse_chunk_key [1, 0, 0, 0, 2, 0, 0, 0, 0x2D] = some r ∧
      r.x = le_signed32 [1, 0, 0, 0] ∧ r.z = le_signed32 [2, 0, 0, 0]) ∧
    parse_chunk_key [1, 0, 0, 0, 2, 0, 0, 0, 0x2D] = some ⟨0, 1, 2, 45, -1⟩ :=
  ⟨by decide,
   (parse_chunk_key_fields [1, 0, 0, 0, 2, 0, 0, 0, 0x2D] (by decide)).imp
     (fun _ hr => ⟨hr.1, hr.2.1, hr.2.2.1⟩),
   by decide⟩

/-- Four bytes are written for an `int`. -/
theorem put_int32_length (v : Int) : (put_int32 v).length = 4 := rfl

/-- C3. The key created for a record has `9 + (4 if dimension ≠ 0) +
(1 if subtag ≠ -1)` bytes: 9 bytes when the dimension is 0 and the subtag is
`-1`, 14 bytes when the dimension is not 0 and the subtag is not `-1`, and
in every case 9, 10, 13 or 14 bytes. -/
theorem create_chunk_key_length (r : chunk_t) :
    (create_chunk_key r).length
      = 9 + (if r.dimension ≠ 0 then 4 else 0) + (if r.subtag ≠ -1 then 1 else 0) ∧
    (r.dimension = 0 ∧ r.subtag = -1 → (create_chunk_key r).length = 9) ∧
    (r.dimension ≠ 0 ∧ r.subtag ≠ -1 → (create_chunk_key r).length = 14) ∧
    ((create_chunk_key r).length = 9 ∨ (create_chunk_key r).length = 10 ∨
      (create_chunk_key r).length = 13 ∨ (create_chunk_key r).length = 14) := by
  have hlen : (create_chunk_key r).length
      = 9 + (if r.dimension ≠ 0 then 4 else 0) + (if r.subtag ≠ -1 then 1 else 0) := by
    unfold create_chunk_key
    by_cases hd : r.dimension = 0 <;> by_cases hs : r.subtag = -1 <;>
      simp [hd, hs, put_int32_length]
  refine ⟨hlen, ?_, ?_, ?_⟩
  · rintro ⟨hd, hs⟩
    rw [hlen, if_neg (not_not.mpr hd), if_neg (not_not.mpr hs)]
  · rintro ⟨hd, hs⟩
    rw [hlen, if_pos hd, if_pos hs]
  · rw [hlen]
    by_cases hd : r.dimension = 0 <;> by_cases hs : r.subtag = -1 <;> simp [hd, hs]

/-- C3 at the records `{0, 1, 2, 45, -1}` (9 bytes) and `{1, 5, -3, 51, 7}`
(14 bytes). -/
theorem create_chunk_key_length_witness :
    (create_chunk_key ⟨0, 1, 2, 45, -1⟩).length = 9 ∧
    (create_chunk_key ⟨1, 5, -3, 51, 7⟩).length = 14 :=
  ⟨(create_chunk_key_length ⟨0, 1, 2, 45, -1⟩).2.1 ⟨rfl, rfl⟩,
   (create_chunk_key_length ⟨1, 5, -3, 51, 7⟩).2.2.1 ⟨by decide, by decide⟩⟩

/-- Parsing the key created for a record that a `chunk_t` can hold and whose
tag is a chunk tag gives the record back. -/
theorem parse_create (r : chunk_t) (hr : r.inRange)
    (ht : (45 ≤ r.tag ∧ r.tag ≤ 58) ∨ r.tag = 118) :
    is_chunk_key (create_chunk_key r) = true ∧
    parse_chunk_key (create_chunk_key r) = some r := by
  obtain ⟨dimension, x, z, tag, subtag⟩ := r
  obtain ⟨⟨hd1, hd2⟩, ⟨hx1, hx2⟩, ⟨hz1, hz2⟩, ⟨ht1, ht2⟩, ⟨hs1, hs2⟩⟩ := hr
  simp only at hd1 hd2 hx1 hx2 hz1 hz2 ht1 ht2 hs1 hs2 ht
  have htt := tag_test_charByte tag ht
  have hparse : parse_chunk_key (create_chunk_key ⟨dimension, x, z, tag, subtag⟩)
      = some ⟨dimension, x, z, tag, subtag⟩ := by
    by_cases hd : dimension = 0 <;> by_cases hs : subtag = -1
    · simp only [create_chunk_key, hd, hs, put_int32, ne_eq, not_true_eq_false, if_false,
        List.append_nil, List.cons_append, List.nil_append]
      rw [parse_nine _ _ _ _ _ _ _ _ _ htt, word_put x hx1 hx2, word_put z hz1 hz2,
        charVal_charByte tag ht1 ht2]
    · simp only [create_chunk_key, hd, hs, put_int32, ne_eq, not_true_eq_false, if_false,
        not_false_eq_true, if_true, List.append_nil, List.cons_append, List.nil_append]
      rw [parse_ten _ _ _ _ _ _ _ _ _ _ htt, word_put x hx1 hx2, word_put z hz1 hz2,
        charVal_charByte tag ht1 ht2, charVal_charByte subtag hs1 hs2]
    · simp only [create_chunk_key, hd, hs, put_int32, ne_eq, not_true_eq_false, if_false,
        not_false_eq_true, if_true, List.append_nil, List.cons_append, List.nil_append]
      rw [parse_thirteen _ _ _ _ _ _ _ _ _ _ _ _ _ htt, word_put x hx1 hx2, word_put z hz1 hz2,
        word_put dimension hd1 hd2, charVal_charByte tag ht1 ht2]
    · simp only [create_chunk_key, hd, hs, put_int32, ne_eq, not_true_eq_false, if_false,
        not_false_eq_true, if_true, List.append_nil, List.cons_append, List.nil_append]
      rw [parse_fourteen _ _ _ _ _ _ _ _ _ _ _ _ _ _ htt, word_put x hx1 hx2,
        word_put z hz1 hz2, word_put dimension hd1 hd2, charVal_charByte tag ht1 ht2,
        charVal_charByte subtag hs1 hs2]
  refine ⟨?_, hparse⟩
  cases hk : is_chunk_key (create_chunk_key ⟨dimension, x, z, tag, subtag⟩)
  · simp [parse_chunk_key, hk] at hparse
  · rfl

/-- A parsed record holds 32-bit integers and signed `char`s. -/
theorem parse_inRange (k : List Byte) (r : chunk_t) (hr : parse_chunk_key k = some r) :
    r.inRange := by
  have hk : is_chunk_key k = true := by
    cases h : is_chunk_key k
    · simp [parse_chunk_key, h] at hr
    · rfl
  rcases chunk_key_shape k hk with
    ⟨a0, a1, a2, a3, a4, a5, a6, a7, t, rfl, ht⟩ |
    ⟨a0, a1, a2, a3, a4, a5, a6, a7, t, s, rfl, ht⟩ |
    ⟨a0, a1, a2, a3, a4, a5, a6, a7, d0, d1, d2, d3, t, rfl, ht⟩ |
    ⟨a0, a1, a2, a3, a4, a5, a6, a7, d0, d1, d2, d3, t, s, rfl, ht⟩
  · rw [parse_nine _ _ _ _ _ _ _ _ _ ht] at hr
    cases hr
    exact ⟨⟨by norm_num, by norm_num⟩, word_range _ _ _ _, word_range _ _ _ _, charVal_range t,
      ⟨by norm_num, by norm_num⟩⟩
  · rw [parse_ten _ _ _ _ _ _ _ _ _ _ ht] at hr
    cases hr
    exact ⟨⟨by norm_num, by norm_num⟩, word_range _ _ _ _, word_range _ _ _ _, charVal_range t,
      charVal_range s⟩
  · rw [parse_thirteen _ _ _ _ _ _ _ _ _ _ _ _ _ ht] at hr
    cases hr
    exact ⟨word_range _ _ _ _, word_range _ _ _ _, word_range _ _ _ _, charVal_range t,
      ⟨by norm_num, by norm_num⟩⟩
  · rw [parse_fourteen _ _ _ _ _ _ _ _ _ _ _ _ _ _ ht] at hr
    cases hr
    exact ⟨word_range _ _ _ _, word_range _ _ _ _, word_range _ _ _ _, charVal_range t,
      charVal_range s⟩

/-- C4, as stated, fails: the record `{0, 1, 2, 45, 255}` has 32-bit
coordinates, a chunk tag and a subtag in `{-1} ∪ [0,255]`, but no key at all
parses to it, since a parsed subtag is a signed `char`; a `char` assigned 255
holds `-1`, and parsing the key created for the record gives the subtag `-1`.
Likewise the subtag 200 comes back as `-56`. -/
theorem parse_create_counterexample :
    (((45 : Int) ≤ 45 ∧ (45 : Int) ≤ 58) ∧ ((0 : Int) ≤ 255 ∧ (255 : Int) ≤ 255)) ∧
    (∀ k : List Byte, parse_chunk_key k ≠ some ⟨0, 1, 2, 45, 255⟩) ∧
    to_char 255 = -1 ∧
    parse_chunk_key (create_chunk_key ⟨0, 1, 2, 45, to_char 255⟩) = some ⟨0, 1, 2, 45, -1⟩ ∧
    is_chunk_key (create_chunk_key ⟨0, 1, 2, 45, 255⟩) = true ∧
    parse_chunk_key (create_chunk_key ⟨0, 1, 2, 45, 255⟩) = some ⟨0, 1, 2, 45, -1⟩ ∧
    parse_chunk_key (create_chunk_key ⟨0, 1, 2, 45, 255⟩) ≠ some ⟨0, 1, 2, 45, 255⟩ ∧
    parse_chunk_key (create_chunk_key ⟨0, 1, 2, 45, 200⟩) = some ⟨0, 1, 2, 45, -56⟩ := by
  refine ⟨by decide, ?_, by decide, by decide, by decide, by decide, by decide, by decide⟩
  intro k hk
  have h := (parse_inRange k _ hk).2.2.2.2.2
  exact absurd h (by decide)

/-- C4, amended. For every record that a `chunk_t` can hold (32-bit
`dimension`, `x`, `z`; `subtag` a signed `char`, which covers `-1` and
`0..127`) and whose tag lies in `[45,58]` or is 118, the created key is a
chunk key and parsing it returns the record in all five fields. -/
theorem parse_create_roundtrip (r : chunk_t)
    (hd : -2147483648 ≤ r.dimension ∧ r.dimension ≤ 2147483647)
    (hx : -2147483648 ≤ r.x ∧ r.x ≤ 2147483647)
    (hz : -2147483648 ≤ r.z ∧ r.z ≤ 2147483647)
    (ht : (45 ≤ r.tag ∧ r.tag ≤ 58) ∨ r.tag = 118)
    (hs : -128 ≤ r.subtag ∧ r.subtag ≤ 127) :
    is_chunk_key (create_chunk_key r) = true ∧
    parse_chunk_key (create_chunk_key r) = some r :=
  parse_create r ⟨hd, hx, hz, ⟨by omega, by omega⟩, hs⟩ ht

/-- C4, amended, at the record `{1, 5, -3, 51, 7}`. -/
theorem parse_create_roundtrip_witness :
    is_chunk_key (create_chunk_key ⟨1, 5, -3, 51, 7⟩) = true ∧
    parse_chunk_key (create_chunk_key ⟨1, 5, -3, 51, 7⟩) = some ⟨1, 5, -3, 51, 7⟩ :=
  parse_create_roundtrip ⟨1, 5, -3, 51, 7⟩ (by decide) (by decide) (by decide)
    (by decide) (by decide)


/-! ## Decimal text -/

/-- Character code of a decimal digit. -/
theorem digitChar_toNat (d : Nat) (h : d < 10) : (Nat.digitChar d).toNat = 48 + d := by
  interval_cases d <;> rfl

/-- A digit is not white space. -/
theorem isspace_of_isdigit (c : Char) (h : isdigit c = true) : isspace c = false := by
  simp only [isdigit, Bool.and_eq_true, decide_eq_true_eq] at h
  simp only [isspace, Bool.or_eq_false_iff, decide_eq_false_iff_not, Bool.and_eq_false_imp,
    decide_eq_true_eq]
  omega

/-- A digit is not a sign. -/
theorem not_sign_of_isdigit (c : Char) (h : isdigit c = true) : c ≠ '-' ∧ c ≠ '+' := by
  simp only [isdigit, Bool.and_eq_true, decide_eq_true_eq] at h
  constructor
  · rintro rfl
    exact absurd h (by decide)
  · rintro rfl
    exact absurd h (by decide)

/-- Appending one digit to a run of digits. -/
theorem digits_value_append (ds : List Char) (c : Char) :
    digits_value (ds ++ [c]) = 10 * digits_value ds + (c.toNat - 48) := by
  simp [digits_value, List.foldl_append]

/-- The digits produced for `n` with enough fuel: a non-empty run of decimal
digits whose value is `n`, put in front of the digits already produced. -/
theorem toDigitsCore_spec (fuel : Nat) : ∀ (n : Nat) (ds : List Char), n < fuel →
    ∃ pre : List Char, Nat.toDigitsCore 10 fuel n ds = pre ++ ds ∧ pre ≠ [] ∧
      (∀ c ∈ pre, isdigit c = true) ∧ digits_value pre = n := by
  induction fuel with
  | zero => intro n ds h; omega
  | succ fuel ih =>
    intro n ds h
    have hd : isdigit (Nat.digitChar (n % 10)) = true := by
      simp only [isdigit, digitChar_toNat (n % 10) (Nat.mod_lt n (by decide)),
        Bool.and_eq_true, decide_eq_true_eq]
      omega
    have hv : (Nat.digitChar (n % 10)).toNat - 48 = n % 10 := by
      rw [digitChar_toNat (n % 10) (Nat.mod_lt n (by decide))]
      omega
    by_cases h0 : n / 10 = 0
    · refine ⟨[Nat.digitChar (n % 10)], ?_, by simp, ?_, ?_⟩
      · simp [Nat.toDigitsCore, h0]
      · intro c hc
        simp only [List.mem_singleton] at hc
        rw [hc]
        exact hd
      · simp only [digits_value, List.foldl, hv]
        omega
    · obtain ⟨pre, he, _, hall, hval⟩ := ih (n / 10) (Nat.digitChar (n % 10) :: ds) (by omega)
      refine ⟨pre ++ [Nat.digitChar (n % 10)], ?_, by simp, ?_, ?_⟩
      · simp [Nat.toDigitsCore, h0, he]
      · intro c hc
        rcases List.mem_append.mp hc with hc | hc
        · exact hall c hc
        · simp only [List.mem_singleton] at hc
          rw [hc]
          exact hd
      · rw [digits_value_append, hval, hv]
        omega

/-- The decimal digits of `n`: a first digit, further digits, and the value `n`. -/
theorem toDigits_spec (n : Nat) :
    ∃ (c : Char) (tl : List Char), Nat.toDigits 10 n = c :: tl ∧ isdigit c = true ∧
      (∀ c' ∈ tl, isdigit c' = true) ∧ digits_value (c :: tl) = n := by
  obtain ⟨pre, he, hne, hall, hval⟩ := toDigitsCore_spec (n + 1) n [] (by omega)
  rw [List.append_nil] at he
  cases pre with
  | nil => exact absurd rfl hne
  | cons c tl =>
    exact ⟨c, tl, he, hall c (List.mem_cons_self c tl),
      fun c' hc' => hall c' (List.mem_cons_of_mem c hc'), hval⟩


/-! ## Extraction of printed numbers -/

/-- A run of digits followed by text that does not start with a digit is what
the digit scan takes, and the text after it is what the scan leaves. -/
theorem scan_digits (pre rest : List Char) (hall : ∀ c ∈ pre, isdigit c = true)
    (hrest : no_digit_head rest) :
    (pre ++ rest).takeWhile isdigit = pre ∧ (pre ++ rest).dropWhile isdigit = rest := by
  rw [List.takeWhile_append_of_pos hall, List.dropWhile_append_of_pos hall]
  cases rest with
  | nil => simp
  | cons c r =>
    have hc : isdigit c = false := hrest c (by simp)
    simp [hc]

/-- Extraction of an unsigned run of digits as an `int`. -/
theorem extract_int_pos (c : Char) (tl rest : List Char) (hc : isdigit c = true)
    (htl : ∀ a ∈ tl, isdigit a = true) (hrest : no_digit_head rest)
    (hrange : digits_value (c :: tl) ≤ 2147483647) :
    (istream.mk (c :: tl ++ rest) false false).extract_int
      = (⟨rest, rest.isEmpty, false⟩, some (digits_value (c :: tl) : Int)) := by
  have hall : ∀ a ∈ c :: tl, isdigit a = true := by
    intro a ha
    rcases List.mem_cons.mp ha with h | h
    · rw [h]; exact hc
    · exact htl a h
  obtain ⟨htake, hdrop⟩ := scan_digits (c :: tl) rest hall hrest
  have hsp := isspace_of_isdigit c hc
  obtain ⟨hm, hp⟩ := not_sign_of_isdigit c hc
  have hscan : scan_sign (c :: tl ++ rest) = (false, c :: tl ++ rest) := by
    simp [scan_sign, hm, hp]
  simp only [istream.extract_int, istream.sentry, istream.good, Bool.not_false, Bool.and_self,
    Bool.not_true, Bool.false_eq_true, if_false, List.cons_append,
    List.dropWhile_cons_of_neg (show ¬ (isspace c = true) by simp [hsp]), List.isEmpty_cons]
  rw [← List.cons_append, hscan]
  simp only [htake, hdrop, List.isEmpty_cons, Bool.false_eq_true, if_false, if_true]
  rw [if_neg (by omega)]


/-- Extraction of a run of digits with a minus sign as an `int`. -/
theorem extract_int_neg (c : Char) (tl rest : List Char) (hc : isdigit c = true)
    (htl : ∀ a ∈ tl, isdigit a = true) (hrest : no_digit_head rest)
    (hrange : digits_value (c :: tl) ≤ 2147483648) :
    (istream.mk ('-' :: (c :: tl ++ rest)) false false).extract_int
      = (⟨rest, rest.isEmpty, false⟩, some (-(digits_value (c :: tl) : Int))) := by
  have hall : ∀ a ∈ c :: tl, isdigit a = true := by
    intro a ha
    rcases List.mem_cons.mp ha with h | h
    · rw [h]; exact hc
    · exact htl a h
  obtain ⟨htake, hdrop⟩ := scan_digits (c :: tl) rest hall hrest
  have hscan : scan_sign ('-' :: (c :: tl ++ rest)) = (true, c :: tl ++ rest) := by
    simp [scan_sign]
  simp only [istream.extract_int, istream.sentry, istream.good, Bool.not_false, Bool.and_self,
    Bool.not_true, Bool.false_eq_true, if_false,
    List.dropWhile_cons_of_neg (show ¬ (isspace '-' = true) by decide), List.isEmpty_cons]
  rw [hscan]
  simp only [htake, hdrop, List.isEmpty_cons, Bool.false_eq_true, if_false, if_true]
  rw [if_neg (by omega)]

/-- Extraction of an unsigned run of digits as an `unsigned int`. -/
theorem extract_unsigned_pos (c : Char) (tl rest : List Char) (hc : isdigit c = true)
    (htl : ∀ a ∈ tl, isdigit a = true) (hrest : no_digit_head rest)
    (hrange : digits_value (c :: tl) ≤ 4294967295) :
    (istream.mk (c :: tl ++ rest) false false).extract_unsigned
      = (⟨rest, rest.isEmpty, false⟩, some (digits_value (c :: tl))) := by
  have hall : ∀ a ∈ c :: tl, isdigit a = true := by
    intro a ha
    rcases List.mem_cons.mp ha with h | h
    · rw [h]; exact hc
    · exact htl a h
  obtain ⟨htake, hdrop⟩ := scan_digits (c :: tl) rest hall hrest
  have hsp := isspace_of_isdigit c hc
  obtain ⟨hm, hp⟩ := not_sign_of_isdigit c hc
  have hscan : scan_sign (c :: tl ++ rest) = (false, c :: tl ++ rest) := by
    simp [scan_sign, hm, hp]
  simp only [istream.extract_unsigned, istream.sentry, istream.good, Bool.not_false,
    Bool.and_self, Bool.not_true, Bool.false_eq_true, if_false, List.cons_append,
    List.dropWhile_cons_of_neg (show ¬ (isspace c = true) by simp [hsp]), List.isEmpty_cons]
  rw [← List.cons_append, hscan]
  simp only [htake, hdrop, List.isEmpty_cons, Bool.false_eq_true, if_false, if_true]
  rw [if_neg (by omega)]

/-- Reading back an `int` that was printed: the extraction succeeds with the
same value and stops at the text that follows. -/
theorem extract_int_put (v : Int) (h1 : -2147483648 ≤ v) (h2 : v ≤ 2147483647)
    (rest : List Char) (hrest : no_digit_head rest) :
    (istream.mk (put_int v ++ rest) false false).extract_int
      = (⟨rest, rest.isEmpty, false⟩, some v) := by
  unfold put_int
  by_cases hneg : v < 0
  · obtain ⟨c, tl, he, hc, htl, hval⟩ := toDigits_spec v.natAbs
    rw [if_pos hneg, he, List.cons_append,
      extract_int_neg c tl rest hc htl hrest (by omega), hval]
    congr 2
    omega
  · obtain ⟨c, tl, he, hc, htl, hval⟩ := toDigits_spec v.toNat
    rw [if_neg hneg, he, extract_int_pos c tl rest hc htl hrest (by omega), hval]
    congr 2
    omega

/-- Reading back an `unsigned int` that was printed. -/
theorem extract_unsigned_put (n : Nat) (h : n ≤ 4294967295)
    (rest : List Char) (hrest : no_digit_head rest) :
    (istream.mk (put_unsigned n ++ rest) false false).extract_unsigned
      = (⟨rest, rest.isEmpty, false⟩, some n) := by
  unfold put_unsigned
  obtain ⟨c, tl, he, hc, htl, hval⟩ := toDigits_spec n
  rw [he, extract_unsigned_pos c tl rest hc htl hrest (by omega), hval]

/-- Text that starts with a colon does not continue with a digit. -/
theorem no_digit_head_colon (r : List Char) : no_digit_head (':' :: r) := by
  intro c hc
  simp only [List.head?_cons, Option.mem_def, Option.some.injEq] at hc
  rw [← hc]
  decide

/-- Text that starts with a hyphen does not continue with a digit. -/
theorem no_digit_head_hyphen (r : List Char) : no_digit_head ('-' :: r) := by
  intro c hc
  simp only [List.head?_cons, Option.mem_def, Option.some.injEq] at hc
  rw [← hc]
  decide

/-- The empty text does not continue with a digit. -/
theorem no_digit_head_nil : no_digit_head [] := by
  intro c hc
  simp at hc

/-- Skipping the colon in front of the next field. -/
theorem ignore_if_colon (r : List Char) :
    (istream.mk (':' :: r) false false).ignore_if ':' = ⟨r, false, false⟩ := by
  simp [istream.ignore_if, istream.peek, istream.ignore, istream.sentry, istream.good]

/-- Peeking at the hyphen in front of the subtag. -/
theorem peek_hyphen (r : List Char) :
    (istream.mk ('-' :: r) false false).peek = (⟨'-' :: r, false, false⟩, some '-') := by
  simp [istream.peek, istream.sentry, istream.good]

/-- Skipping one character of a good stream. -/
theorem ignore_cons (c : Char) (r : List Char) :
    (istream.mk (c :: r) false false).ignore = ⟨r, false, false⟩ := by
  simp [istream.ignore, istream.sentry, istream.good]

/-- Peeking after the end of the text was reached. -/
theorem peek_eof : (istream.mk [] true false).peek = (⟨[], true, true⟩, none) := by
  simp [istream.peek, istream.sentry, istream.good]


/-! ## The text of a key -/

/-- Printing an `int` gives its decimal numeral. -/
theorem put_int_eq_dec (v : Int) : put_int v = dec v := by
  cases v with
  | ofNat m =>
    have h : ¬ ((Int.ofNat m) < 0) := Int.not_lt.mpr (Int.ofNat_nonneg m)
    simp only [put_int, if_neg h, dec, Int.repr, Nat.repr, List.asString, Int.toNat]
    rfl
  | negSucc m =>
    have h : Int.negSucc m < 0 := Int.negSucc_lt_zero m
    simp only [put_int, if_pos h, dec, Int.repr, Nat.repr, List.asString, Int.natAbs]
    rfl

/-- Printing an `unsigned int` gives its decimal numeral. -/
theorem put_unsigned_eq_dec (n : Nat) : put_unsigned n = dec (n : Int) := by
  simp only [put_unsigned, dec, Int.repr, Nat.repr, List.asString]
  rfl

/-- The bytes written for an `int` are its little-endian two's complement form. -/
theorem put_int32_eq_le32 (v : Int) : put_int32 v = le32 v := by
  have e0 : byteOf (v % 4294967296).toNat = byteOf (v % 256).toNat := by
    apply Fin.ext
    simp only [byteOf_val]
    omega
  have e1 : byteOf ((v % 4294967296).toNat / 256) = byteOf (v / 256 % 256).toNat := by
    apply Fin.ext
    simp only [byteOf_val]
    omega
  have e2 : byteOf ((v % 4294967296).toNat / 65536) = byteOf (v / 65536 % 256).toNat := by
    apply Fin.ext
    simp only [byteOf_val]
    omega
  have e3 : byteOf ((v % 4294967296).toNat / 16777216) = byteOf (v / 16777216 % 256).toNat := by
    apply Fin.ext
    simp only [byteOf_val]
    omega
  simp only [put_int32, le32, e0, e1, e2, e3]

/-- The text produced for a chunk key, from the record it parses to. -/
theorem encode_key_chunk (pe : List Byte → List Char) (k : List Byte) (r : chunk_t)
    (hk : is_chunk_key k = true) (hr : parse_chunk_key k = some r) :
    encode_key pe k = key_text r.dimension r.x r.z (to_uint r.tag)
      (if r.subtag ≠ -1 then some (to_uint r.subtag) else none) := by
  simp only [encode_key, hk, hr, Bool.not_true, Bool.false_eq_true, if_false, key_text,
    put_int_eq_dec, put_unsigned_eq_dec]
  by_cases hs : r.subtag = -1 <;> simp [hs]

/-- Reading back a printed `unsigned int` at the end of the text. -/
theorem extract_unsigned_put_end (n : Nat) (h : n ≤ 4294967295) :
    (istream.mk (put_unsigned n) false false).extract_unsigned
      = (⟨[], true, false⟩, some n) := by
  have := extract_unsigned_put n h [] no_digit_head_nil
  rw [List.append_nil] at this
  rw [this]
  rfl

/-- Decoding the text of a key: the fields are read back and the key of the
record they form is created. -/
theorem decode_key_text (pd : List Char → List Byte) (dimension x z : Int) (tag : Nat)
    (subtag : Option Nat)
    (hd : -2147483648 ≤ dimension ∧ dimension ≤ 2147483647)
    (hx : -2147483648 ≤ x ∧ x ≤ 2147483647)
    (hz : -2147483648 ≤ z ∧ z ≤ 2147483647)
    (ht : tag ≤ 4294967295) (hs : ∀ s ∈ subtag, s ≤ 4294967295) :
    decode_key pd (key_text dimension x z tag subtag)
      = some (create_chunk_key ⟨dimension, x, z, to_char tag,
          subtag.elim (-1) (fun s => to_char (s : Int))⟩) := by
  cases subtag with
  | none =>
    simp only [key_text]
    rw [← put_unsigned_eq_dec tag]
    simp only [← put_int_eq_dec, List.append_assoc,
      List.cons_append, List.append_nil, decode_key, ne_eq, not_true_eq_false, if_false,
      extract_int_put dimension hd.1 hd.2 _ (no_digit_head_colon _),
      extract_int_put x hx.1 hx.2 _ (no_digit_head_colon _),
      extract_int_put z hz.1 hz.2 _ (no_digit_head_colon _),
      extract_unsigned_put_end tag ht,
      List.isEmpty_cons, ignore_if_colon, peek_eof]
    rw [if_neg (by simp)]
    rfl
  | some s =>
    have hs' : s ≤ 4294967295 := hs s rfl
    simp only [key_text]
    rw [← put_unsigned_eq_dec tag, ← put_unsigned_eq_dec s]
    simp only [← put_int_eq_dec, List.append_assoc,
      List.cons_append, List.append_nil, decode_key, ne_eq, not_true_eq_false, if_false,
      extract_int_put dimension hd.1 hd.2 _ (no_digit_head_colon _),
      extract_int_put x hx.1 hx.2 _ (no_digit_head_colon _),
      extract_int_put z hz.1 hz.2 _ (no_digit_head_colon _),
      extract_unsigned_put tag ht _ (no_digit_head_hyphen _),
      extract_unsigned_put_end s hs',
      List.isEmpty_cons, ignore_if_colon, peek_hyphen, ignore_cons]
    rw [if_pos trivial]
    rfl


/-! ## From a key to its text and back -/

/-- Converting a `char` to `unsigned int` and back to `char` gives the `char`. -/
theorem to_char_to_uint (c : Int) (h1 : -128 ≤ c) (h2 : c ≤ 127) :
    to_char ((to_uint c : Nat) : Int) = c := by
  simp only [to_char, to_uint]
  omega

/-- An `unsigned int` has 32 bits. -/
theorem to_uint_le (c : Int) : to_uint c ≤ 4294967295 := by
  simp only [to_uint]
  omega

/-- A non-negative `char` converts to `unsigned int` unchanged. -/
theorem to_uint_of_nonneg (n : Nat) (h : n ≤ 127) : to_uint (n : Int) = n := by
  simp only [to_uint]
  omega

/-- Decoding the text of a chunk key creates the key of the record the chunk
key parses to. -/
theorem decode_encode_key (pe : List Byte → List Char) (pd : List Char → List Byte)
    (k : List Byte) (r : chunk_t) (hk : is_chunk_key k = true)
    (hr : parse_chunk_key k = some r) :
    decode_key pd (encode_key pe k) = some (create_chunk_key r) := by
  obtain ⟨hd, hx, hz, ⟨ht1, ht2⟩, ⟨hs1, hs2⟩⟩ := parse_inRange k r hr
  have hsub : ∀ s ∈ (if r.subtag ≠ -1 then some (to_uint r.subtag) else none),
      s ≤ 4294967295 := by
    intro s hs
    by_cases h : r.subtag = -1
    · simp [h] at hs
    · simp only [h, ne_eq, not_false_eq_true, if_true, Option.mem_def, Option.some.injEq] at hs
      rw [← hs]
      exact to_uint_le r.subtag
  rw [encode_key_chunk pe k r hk hr,
    decode_key_text pd r.dimension r.x r.z _ _ hd hx hz (to_uint_le r.tag) hsub,
    to_char_to_uint r.tag ht1 ht2]
  by_cases hs : r.subtag = -1
  · simp only [hs, ne_eq, not_true_eq_false, if_false, Option.elim]
    rw [← hs]
  · simp only [hs, ne_eq, not_false_eq_true, if_true, Option.elim,
      to_char_to_uint r.subtag hs1 hs2]

/-- Creating the key of the record parsed from a chunk key in minimal form
(no all-zero dimension bytes, no subtag byte `0xFF`) gives the key back. -/
theorem create_parse (k : List Byte) (r : chunk_t) (hk : is_chunk_key k = true)
    (hr : parse_chunk_key k = some r)
    (hdim : (k.length = 13 ∨ k.length = 14) → (k.drop 8).take 4 ≠ [0, 0, 0, 0])
    (hsub : (k.length = 10 ∨ k.length = 14) → k.getLast? ≠ some 255) :
    create_chunk_key r = k := by
  rcases chunk_key_shape k hk with
    ⟨a0, a1, a2, a3, a4, a5, a6, a7, t, rfl, ht⟩ |
    ⟨a0, a1, a2, a3, a4, a5, a6, a7, t, s, rfl, ht⟩ |
    ⟨a0, a1, a2, a3, a4, a5, a6, a7, d0, d1, d2, d3, t, rfl, ht⟩ |
    ⟨a0, a1, a2, a3, a4, a5, a6, a7, d0, d1, d2, d3, t, s, rfl, ht⟩
  · rw [parse_nine _ _ _ _ _ _ _ _ _ ht] at hr
    cases hr
    simp [create_chunk_key, put_word, charByte_charVal]
  · rw [parse_ten _ _ _ _ _ _ _ _ _ _ ht] at hr
    cases hr
    have hs : charVal s ≠ -1 := by
      rw [ne_eq, charVal_eq_neg_one]
      intro h
      have e : s = 255 := Fin.ext h
      subst e
      exact hsub (Or.inl rfl) rfl
    simp [create_chunk_key, put_word, charByte_charVal, hs]
  · rw [parse_thirteen _ _ _ _ _ _ _ _ _ _ _ _ _ ht] at hr
    cases hr
    have hd : word d0 d1 d2 d3 ≠ 0 := by
      intro h
      obtain ⟨e0, e1, e2, e3⟩ := word_eq_zero d0 d1 d2 d3 h
      exact hdim (Or.inl rfl) (by simp [e0, e1, e2, e3])
    simp [create_chunk_key, put_word, charByte_charVal, hd]
  · rw [parse_fourteen _ _ _ _ _ _ _ _ _ _ _ _ _ _ ht] at hr
    cases hr
    have hs : charVal s ≠ -1 := by
      rw [ne_eq, charVal_eq_neg_one]
      intro h
      have e : s = 255 := Fin.ext h
      subst e
      exact hsub (Or.inr rfl) rfl
    have hd : word d0 d1 d2 d3 ≠ 0 := by
      intro h
      obtain ⟨e0, e1, e2, e3⟩ := word_eq_zero d0 d1 d2 d3 h
      exact hdim (Or.inr rfl) (by simp [e0, e1, e2, e3])
    simp [create_chunk_key, put_word, charByte_charVal, hs, hd]

/-- A chunk key parses. -/
theorem parse_isSome (k : List Byte) (hk : is_chunk_key k = true) :
    ∃ r : chunk_t, parse_chunk_key k = some r := by
  rcases chunk_key_shape k hk with
    ⟨a0, a1, a2, a3, a4, a5, a6, a7, t, rfl, ht⟩ |
    ⟨a0, a1, a2, a3, a4, a5, a6, a7, t, s, rfl, ht⟩ |
    ⟨a0, a1, a2, a3, a4, a5, a6, a7, d0, d1, d2, d3, t, rfl, ht⟩ |
    ⟨a0, a1, a2, a3, a4, a5, a6, a7, d0, d1, d2, d3, t, s, rfl, ht⟩
  · exact ⟨_, parse_nine _ _ _ _ _ _ _ _ _ ht⟩
  · exact ⟨_, parse_ten _ _ _ _ _ _ _ _ _ _ ht⟩
  · exact ⟨_, parse_thirteen _ _ _ _ _ _ _ _ _ _ _ _ _ ht⟩
  · exact ⟨_, parse_fourteen _ _ _ _ _ _ _ _ _ _ _ _ _ _ ht⟩


/-- C5, as stated, fails: the 13-byte chunk key with the dimension 0 stored
explicitly and the 10-byte chunk key with the subtag byte `0xFF` both come
back from their text as the 9-byte key. -/
theorem decode_encode_counterexample :
    is_chunk_key [1, 0, 0, 0, 2, 0, 0, 0, 0, 0, 0, 0, 45] = true ∧
    is_chunk_key [1, 0, 0, 0, 2, 0, 0, 0, 45, 255] = true ∧
    (∀ (pe : List Byte → List Char) (pd : List Char → List Byte),
      encode_key pe [1, 0, 0, 0, 2, 0, 0, 0, 0, 0, 0, 0, 45] = "@0:1:2:45".toList ∧
      decode_key pd (encode_key pe [1, 0, 0, 0, 2, 0, 0, 0, 0, 0, 0, 0, 45])
        = some [1, 0, 0, 0, 2, 0, 0, 0, 45] ∧
      decode_key pd (encode_key pe [1, 0, 0, 0, 2, 0, 0, 0, 0, 0, 0, 0, 45])
        ≠ some [1, 0, 0, 0, 2, 0, 0, 0, 0, 0, 0, 0, 45] ∧
      encode_key pe [1, 0, 0, 0, 2, 0, 0, 0, 45, 255] = "@0:1:2:45".toList ∧
      decode_key pd (encode_key pe [1, 0, 0, 0, 2, 0, 0, 0, 45, 255])
        = some [1, 0, 0, 0, 2, 0, 0, 0, 45] ∧
      decode_key pd (encode_key pe [1, 0, 0, 0, 2, 0, 0, 0, 45, 255])
        ≠ some [1, 0, 0, 0, 2, 0, 0, 0, 45, 255]) := by
  refine ⟨by decide, by decide, fun pe pd => ?_⟩
  have h1 : decode_key pd (encode_key pe [1, 0, 0, 0, 2, 0, 0, 0, 0, 0, 0, 0, 45])
      = some [1, 0, 0, 0, 2, 0, 0, 0, 45] := rfl
  have h2 : decode_key pd (encode_key pe [1, 0, 0, 0, 2, 0, 0, 0, 45, 255])
      = some [1, 0, 0, 0, 2, 0, 0, 0, 45] := rfl
  refine ⟨rfl, h1, ?_, rfl, h2, ?_⟩
  · rw [h1]
    decide
  · rw [h2]
    decide

/-- C5, amended. For every chunk key in minimal form, that is, whose
dimension bytes `[8,12)` are not all zero when its length is 13 or 14 and
whose last byte is not `0xFF` when its length is 10 or 14, decoding the text
that `encode_key` produces gives the key back byte for byte. -/
theorem decode_encode_roundtrip (pe : List Byte → List Char) (pd : List Char → List Byte)
    (k : List Byte) (hk : is_chunk_key k = true)
    (hdim : (k.length = 13 ∨ k.length = 14) → (k.drop 8).take 4 ≠ [0, 0, 0, 0])
    (hsub : (k.length = 10 ∨ k.length = 14) → k.getLast? ≠ some 255) :
    decode_key pd (encode_key pe k) = some k := by
  obtain ⟨r, hr⟩ := parse_isSome k hk
  rw [decode_encode_key pe pd k r hk hr, create_parse k r hk hr hdim hsub]

/-- C5, amended, at a 14-byte key and at a 10-byte key whose subtag byte is `0x80`. -/
theorem decode_encode_roundtrip_witness :
    decode_key (fun _ => []) (encode_key (fun _ => [])
        [5, 0, 0, 0, 0xFD, 0xFF, 0xFF, 0xFF, 1, 0, 0, 0, 51, 7])
      = some [5, 0, 0, 0, 0xFD, 0xFF, 0xFF, 0xFF, 1, 0, 0, 0, 51, 7] ∧
    decode_key (fun _ => []) (encode_key (fun _ => []) [1, 0, 0, 0, 2, 0, 0, 0, 45, 0x80])
      = some [1, 0, 0, 0, 2, 0, 0, 0, 45, 0x80] :=
  ⟨decode_encode_roundtrip _ _ [5, 0, 0, 0, 0xFD, 0xFF, 0xFF, 0xFF, 1, 0, 0, 0, 51, 7]
      (by decide) (by decide) (by decide),
   decode_encode_roundtrip _ _ [1, 0, 0, 0, 2, 0, 0, 0, 45, 0x80]
      (by decide) (by decide) (by decide)⟩

/-- C6, as stated, fails: the text `@0:1:2:45-255` has the stated form, with
the subtag 255 in the unsigned 8-bit range, and decodes to the 9-byte key
whose text is `@0:1:2:45`; and for the tag 200 the decoded key is not a chunk
key, so that `encode_key` returns its percent-encoding. -/
theorem encode_decode_counterexample :
    key_text 0 1 2 45 (some 255) = "@0:1:2:45-255".toList ∧
    (∀ (pe : List Byte → List Char) (pd : List Char → List Byte),
      (decode_key pd "@0:1:2:45-255".toList).map (encode_key pe) = some "@0:1:2:45".toList ∧
      (decode_key pd "@0:1:2:45-255".toList).map (encode_key pe)
        ≠ some "@0:1:2:45-255".toList ∧
      (decode_key pd "@0:1:2:200".toList).map (encode_key pe)
        = some (pe [1, 0, 0, 0, 2, 0, 0, 0, 200])) := by
  refine ⟨by decide, fun pe pd => ?_⟩
  have h : (decode_key pd "@0:1:2:45-255".toList).map (encode_key pe)
      = some "@0:1:2:45".toList := rfl
  refine ⟨h, ?_, rfl⟩
  rw [h]
  decide

/-- C6, amended. For every text `@<dimension>:<x>:<z>:<tag>` or
`@<dimension>:<x>:<z>:<tag>-<subtag>` with decimal numerals, `dimension`, `x`
and `z` in the signed 32-bit range, `tag` in `[45,58]` or 118 and `subtag` in
`0..127`, encoding the decoded key gives the text back. -/
theorem encode_decode_roundtrip (pe : List Byte → List Char) (pd : List Char → List Byte)
    (dimension x z : Int) (tag : Nat) (subtag : Option Nat)
    (hd : -2147483648 ≤ dimension ∧ dimension ≤ 2147483647)
    (hx : -2147483648 ≤ x ∧ x ≤ 2147483647)
    (hz : -2147483648 ≤ z ∧ z ≤ 2147483647)
    (ht : (45 ≤ tag ∧ tag ≤ 58) ∨ tag = 118)
    (hs : ∀ s ∈ subtag, s ≤ 127) :
    (decode_key pd (key_text dimension x z tag subtag)).map (encode_key pe)
      = some (key_text dimension x z tag subtag) := by
  have htc : to_char (tag : Int) = (tag : Int) := by
    simp only [to_char]
    omega
  have hsub : ∀ s ∈ subtag, s ≤ 4294967295 := fun s h => by
    have := hs s h
    omega
  rw [decode_key_text pd dimension x z tag subtag hd hx hz (by omega) hsub, htc,
    Option.map_some']
  congr 1
  cases subtag with
  | none =>
    obtain ⟨hk, hp⟩ := parse_create ⟨dimension, x, z, tag, -1⟩
      ⟨hd, hx, hz, ⟨by simp only; omega, by simp only; omega⟩, ⟨by norm_num, by norm_num⟩⟩
      (by simp only; omega)
    rw [Option.elim, encode_key_chunk pe _ _ hk hp, to_uint_of_nonneg tag (by omega)]
    simp
  | some s =>
    have hs' : s ≤ 127 := hs s rfl
    have hsc : to_char (s : Int) = (s : Int) := by
      simp only [to_char]
      omega
    obtain ⟨hk, hp⟩ := parse_create ⟨dimension, x, z, tag, s⟩
      ⟨hd, hx, hz, ⟨by simp only; omega, by simp only; omega⟩,
        ⟨by simp only; omega, by simp only; omega⟩⟩
      (by simp only; omega)
    have hne : ((s : Nat) : Int) ≠ -1 := by omega
    rw [Option.elim, hsc, encode_key_chunk pe _ _ hk hp, to_uint_of_nonneg tag (by omega),
      to_uint_of_nonneg s hs']
    simp [hne]

/-- C6, amended, at the text `@1:5:-3:51-7`. -/
theorem encode_decode_roundtrip_witness :
    key_text 1 5 (-3) 51 (some 7) = "@1:5:-3:51-7".toList ∧
    (decode_key (fun _ => []) (key_text 1 5 (-3) 51 (some 7))).map (encode_key (fun _ => []))
      = some (key_text 1 5 (-3) 51 (some 7)) :=
  ⟨by decide,
   encode_decode_roundtrip _ _ 1 5 (-3) 51 (some 7) (by decide) (by decide) (by decide)
     (by decide) (by decide)⟩


/-- C7. For every chunk key of length 9 or 13 the text produced by
`encode_key` is `@`, the decimal numeral of the parsed dimension, `:`, that of
`x`, `:`, that of `z`, `:` and the decimal numeral of the tag, which is the
value of the last byte of the key (45..58 or 118); there is no subtag suffix. -/
theorem encode_key_no_subtag (pe : List Byte → List Char) (k : List Byte)
    (hk : is_chunk_key k = true) (hlen : k.length = 9 ∨ k.length = 13) :
    ∃ r : chunk_t, parse_chunk_key k = some r ∧
      ((45 ≤ r.tag ∧ r.tag ≤ 58) ∨ r.tag = 118) ∧
      r.tag = ((k.getD (k.length - 1) 0).val : Int) ∧
      encode_key pe k
        = '@' :: dec r.dimension ++ ':' :: dec r.x ++ ':' :: dec r.z ++ ':' :: dec r.tag := by
  rcases chunk_key_shape k hk with
    ⟨a0, a1, a2, a3, a4, a5, a6, a7, t, rfl, ht⟩ |
    ⟨a0, a1, a2, a3, a4, a5, a6, a7, t, s, rfl, ht⟩ |
    ⟨a0, a1, a2, a3, a4, a5, a6, a7, d0, d1, d2, d3, t, rfl, ht⟩ |
    ⟨a0, a1, a2, a3, a4, a5, a6, a7, d0, d1, d2, d3, t, s, rfl, ht⟩
  · have hp := parse_nine a0 a1 a2 a3 a4 a5 a6 a7 t ht
    have hv := charVal_of_tag_test t ht
    have hr := (tag_test_iff t).mp ht
    refine ⟨_, hp, ?_, ?_, ?_⟩
    · simp only [hv]
      omega
    · simp [hv]
    · rw [encode_key_chunk pe _ _ hk hp]
      simp only [hv, to_uint_of_nonneg t.val (by omega), key_text, ne_eq, not_true_eq_false,
        if_false, List.append_nil]
  · simp at hlen
  · have hp := parse_thirteen a0 a1 a2 a3 a4 a5 a6 a7 d0 d1 d2 d3 t ht
    have hv := charVal_of_tag_test t ht
    have hr := (tag_test_iff t).mp ht
    refine ⟨_, hp, ?_, ?_, ?_⟩
    · simp only [hv]
      omega
    · simp [hv]
    · rw [encode_key_chunk pe _ _ hk hp]
      simp only [hv, to_uint_of_nonneg t.val (by omega), key_text, ne_eq, not_true_eq_false,
        if_false, List.append_nil]
  · simp at hlen

/-- C7 at the key `01 00 00 00 02 00 00 00 2D`, whose text is `@0:1:2:45`. -/
theorem encode_key_no_subtag_witness :
    (∃ r : chunk_t, parse_chunk_key [1, 0, 0, 0, 2, 0, 0, 0, 0x2D] = some r ∧
      encode_key (fun _ => []) [1, 0, 0, 0, 2, 0, 0, 0, 0x2D]
        = '@' :: dec r.dimension ++ ':' :: dec r.x ++ ':' :: dec r.z ++ ':' :: dec r.tag) ∧
    encode_key (fun _ => []) [1, 0, 0, 0, 2, 0, 0, 0, 0x2D] = "@0:1:2:45".toList :=
  ⟨(encode_key_no_subtag (fun _ => []) [1, 0, 0, 0, 2, 0, 0, 0, 0x2D] (by decide)
      (Or.inl rfl)).imp (fun _ h => ⟨h.1, h.2.2.2⟩),
   by decide⟩

/-- C8 fails on the code: for the 10-byte chunk key ending in the subtag byte
`0x80`, `encode_key` prints the subtag as 4294967168 (the `char` value `-128`
converted to `unsigned int`), not as 128. -/
theorem encode_key_subtag_sign_extended :
    is_chunk_key [1, 0, 0, 0, 2, 0, 0, 0, 0x2D, 0x80] = true ∧
    (∀ pe : List Byte → List Char,
      encode_key pe [1, 0, 0, 0, 2, 0, 0, 0, 0x2D, 0x80] = "@0:1:2:45-4294967168".toList) :=
  ⟨by decide, fun _ => rfl⟩

/-- The byte written for the `char` an unsigned value converts to. -/
theorem charByte_to_char (n : Nat) : charByte (to_char (n : Int)) = byteOf n := by
  apply Fin.ext
  simp only [charByte, to_char, byteOf_val]
  omega

/-- C9. For 32-bit `dimension`, `x`, `z`, a tag in `[45,58]` or 118 and a
subtag that is absent or in `[0,254]`, decoding the text
`@<dimension>:<x>:<z>:<tag>[-<subtag>]` with decimal numerals returns the
little-endian bytes of `x`, those of `z`, those of `dimension` when it is not
0, the tag byte and, when present, the subtag byte. -/
theorem decode_key_canonical (pd : List Char → List Byte)
    (dimension x z : Int) (tag : Nat) (subtag : Option Nat)
    (hd : -2147483648 ≤ dimension ∧ dimension ≤ 2147483647)
    (hx : -2147483648 ≤ x ∧ x ≤ 2147483647)
    (hz : -2147483648 ≤ z ∧ z ≤ 2147483647)
    (ht : (45 ≤ tag ∧ tag ≤ 58) ∨ tag = 118)
    (hs : ∀ s ∈ subtag, s ≤ 254) :
    decode_key pd (key_text dimension x z tag subtag)
      = some (record_key dimension x z tag subtag) := by
  have hsub : ∀ s ∈ subtag, s ≤ 4294967295 := fun s h => by
    have := hs s h
    omega
  rw [decode_key_text pd dimension x z tag subtag hd hx hz (by omega) hsub]
  congr 1
  cases subtag with
  | none =>
    simp only [create_chunk_key, record_key, put_int32_eq_le32, charByte_to_char, Option.elim,
      ne_eq, not_true_eq_false, if_false]
  | some s =>
    have hs' : s ≤ 254 := hs s rfl
    have hne : to_char (s : Int) ≠ -1 := by
      simp only [to_char]
      omega
    simp only [create_chunk_key, record_key, put_int32_eq_le32, charByte_to_char, Option.elim,
      ne_eq, hne, not_false_eq_true, if_true]

/-- C9 at the text `@1:5:-3:51-7`: it decodes to the 14-byte key of
`{dimension 1, x 5, z -3, tag 51, subtag 7}`, whose text is `@1:5:-3:51-7`. -/
theorem decode_key_canonical_witness :
    key_text 1 5 (-3) 51 (some 7) = "@1:5:-3:51-7".toList ∧
    decode_key (fun _ => []) (key_text 1 5 (-3) 51 (some 7))
      = some (record_key 1 5 (-3) 51 (some 7)) ∧
    record_key 1 5 (-3) 51 (some 7)
      = [5, 0, 0, 0, 0xFD, 0xFF, 0xFF, 0xFF, 1, 0, 0, 0, 51, 7] ∧
    parse_chunk_key [5, 0, 0, 0, 0xFD, 0xFF, 0xFF, 0xFF, 1, 0, 0, 0, 51, 7]
      = some ⟨1, 5, -3, 51, 7⟩ ∧
    encode_key (fun _ => []) [5, 0, 0, 0, 0xFD, 0xFF, 0xFF, 0xFF, 1, 0, 0, 0, 51, 7]
      = "@1:5:-3:51-7".toList :=
  ⟨by decide,
   decode_key_canonical _ 1 5 (-3) 51 (some 7) (by decide) (by decide) (by decide)
     (by decide) (by decide),
   by decide, by decide, by decide⟩


/-! ## Malformed text -/

/-- An extraction of an `int` fails when the text does not begin with an integer. -/
theorem extract_int_none (s : istream) (h : begins_with_integer s.buf = false) :
    s.extract_int.2 = none := by
  obtain ⟨buf, e, f⟩ := s
  simp only [begins_with_integer] at h
  simp only [istream.extract_int, istream.sentry, istream.good]
  cases e <;> cases f <;> simp only [Bool.not_false, Bool.not_true, Bool.and_self,
    Bool.and_false, Bool.false_and, Bool.false_eq_true, if_false, if_true]
  cases hb : buf.dropWhile isspace with
  | nil => simp
  | cons c r =>
    rw [hb] at h
    simp only [List.isEmpty_cons, Bool.false_eq_true, if_false, Bool.not_false, Bool.and_self,
      if_true]
    by_cases hc : c = '-' ∨ c = '+'
    · simp only [if_pos hc] at h
      have hscan : (scan_sign (c :: r)).2 = r := by
        rcases hc with hc | hc <;> simp [scan_sign, hc]
      rw [hscan]
      cases r with
      | nil => simp
      | cons d r' =>
        simp only at h
        simp [h]
    · simp only [if_neg hc] at h
      have hscan : (scan_sign (c :: r)).2 = c :: r := by
        simp only [not_or] at hc
        simp [scan_sign, hc.1, hc.2]
      rw [hscan]
      simp [h]


/-- An extraction of an `unsigned int` fails when the text does not begin
with an integer. -/
theorem extract_unsigned_none (s : istream) (h : begins_with_integer s.buf = false) :
    s.extract_unsigned.2 = none := by
  obtain ⟨buf, e, f⟩ := s
  simp only [begins_with_integer] at h
  simp only [istream.extract_unsigned, istream.sentry, istream.good]
  cases e <;> cases f <;> simp only [Bool.not_false, Bool.not_true, Bool.and_self,
    Bool.and_false, Bool.false_and, Bool.false_eq_true, if_false, if_true]
  cases hb : buf.dropWhile isspace with
  | nil => simp
  | cons c r =>
    rw [hb] at h
    simp only [List.isEmpty_cons, Bool.false_eq_true, if_false, Bool.not_false, Bool.and_self,
      if_true]
    by_cases hc : c = '-' ∨ c = '+'
    · simp only [if_pos hc] at h
      have hscan : (scan_sign (c :: r)).2 = r := by
        rcases hc with hc | hc <;> simp [scan_sign, hc]
      rw [hscan]
      cases r with
      | nil => simp
      | cons d r' =>
        simp only at h
        simp [h]
    · simp only [if_neg hc] at h
      have hscan : (scan_sign (c :: r)).2 = c :: r := by
        simp only [not_or] at hc
        simp [scan_sign, hc.1, hc.2]
      rw [hscan]
      simp [h]

/-- The text after an integer is what the sign and digit scans leave. -/
theorem after_integer_eq (buf : List Char) :
    after_integer buf = (scan_sign (buf.dropWhile isspace)).2.dropWhile isdigit := by
  unfold after_integer
  cases buf.dropWhile isspace with
  | nil => simp [scan_sign]
  | cons c r =>
    by_cases hc : c = '-' ∨ c = '+'
    · have hscan : (scan_sign (c :: r)).2 = r := by
        rcases hc with hc | hc <;> simp [scan_sign, hc]
      simp only [if_pos hc, hscan]
    · have hscan : (scan_sign (c :: r)).2 = c :: r := by
        simp only [not_or] at hc
        simp [scan_sign, hc.1, hc.2]
      simp only [if_neg hc, hscan]

/-- A successful extraction of an `int` leaves the text after the integer in
a stream without `failbit`, with `eofbit` set exactly at the end of the text. -/
theorem extract_int_some (s s1 : istream) (v : Int) (h : s.extract_int = (s1, some v)) :
    s1.buf = after_integer s.buf ∧ s1.failbit = false ∧ s1.eofbit = s1.buf.isEmpty := by
  obtain ⟨buf, e, f⟩ := s
  rw [after_integer_eq]
  simp only [istream.extract_int, istream.sentry, istream.good] at h
  cases e <;> cases f <;> simp only [Bool.not_false, Bool.not_true, Bool.and_self,
    Bool.and_false, Bool.false_and, Bool.false_eq_true, if_false, if_true, Prod.mk.injEq,
    and_false, reduceCtorEq] at h
  cases hb : buf.dropWhile isspace with
  | nil => simp [hb] at h
  | cons c r =>
    simp only [hb, List.isEmpty_cons, Bool.false_eq_true, if_false, Bool.not_false,
      Bool.and_self, if_true] at h
    repeat' split at h
    all_goals first
      | (simp only [Prod.mk.injEq, reduceCtorEq, and_false] at h; done)
      | (simp only [Prod.mk.injEq] at h
         rw [← h.1]
         exact ⟨rfl, rfl, rfl⟩)

/-- A successful extraction of an `unsigned int` leaves the text after the
integer in a stream without `failbit`, with `eofbit` set exactly at the end. -/
theorem extract_unsigned_some (s s1 : istream) (v : Nat)
    (h : s.extract_unsigned = (s1, some v)) :
    s1.buf = after_integer s.buf ∧ s1.failbit = false ∧ s1.eofbit = s1.buf.isEmpty := by
  obtain ⟨buf, e, f⟩ := s
  rw [after_integer_eq]
  simp only [istream.extract_unsigned, istream.sentry, istream.good] at h
  cases e <;> cases f <;> simp only [Bool.not_false, Bool.not_true, Bool.and_self,
    Bool.and_false, Bool.false_and, Bool.false_eq_true, if_false, if_true, Prod.mk.injEq,
    and_false, reduceCtorEq] at h
  cases hb : buf.dropWhile isspace with
  | nil => simp [hb] at h
  | cons c r =>
    simp only [hb, List.isEmpty_cons, Bool.false_eq_true, if_false, Bool.not_false,
      Bool.and_self, if_true] at h
    repeat' split at h
    all_goals first
      | (simp only [Prod.mk.injEq, reduceCtorEq, and_false] at h; done)
      | (simp only [Prod.mk.injEq] at h
         rw [← h.1]
         exact ⟨rfl, rfl, rfl⟩)

/-- Skipping an optional colon leaves the text after the colon; the stream is
then good or at the end of the text. -/
theorem ignore_if_colon_buf (s : istream) (hf : s.failbit = false)
    (he : s.eofbit = s.buf.isEmpty) :
    (s.ignore_if ':').buf = after_colon s.buf := by
  obtain ⟨buf, e, f⟩ := s
  simp only at hf he
  subst hf
  subst he
  cases buf with
  | nil => simp [istream.ignore_if, istream.peek, istream.sentry, istream.good, after_colon]
  | cons c r =>
    by_cases hc : c = ':'
    · simp [istream.ignore_if, istream.peek, istream.ignore, istream.sentry, istream.good,
        after_colon, hc]
    · simp [istream.ignore_if, istream.peek, istream.ignore, istream.sentry, istream.good,
        after_colon, hc]


/-- One extraction of an `int`: it fails, or the text begins with an integer
and the stream is left after it without `failbit`. -/
theorem extract_int_step (s : istream) :
    (∃ s1, s.extract_int = (s1, none)) ∨
    (∃ s1 v, s.extract_int = (s1, some v) ∧ begins_with_integer s.buf = true ∧
      s1.buf = after_integer s.buf ∧ s1.failbit = false ∧ s1.eofbit = s1.buf.isEmpty) := by
  rcases h : s.extract_int with ⟨s1, _ | v⟩
  · exact Or.inl ⟨s1, rfl⟩
  · refine Or.inr ⟨s1, v, rfl, ?_, extract_int_some s s1 v h⟩
    cases hb : begins_with_integer s.buf
    · have := extract_int_none s hb
      rw [h] at this
      simp at this
    · rfl

/-- One extraction of an `unsigned int`: it fails, or the text begins with an
integer and the stream is left after it without `failbit`. -/
theorem extract_unsigned_step (s : istream) :
    (∃ s1, s.extract_unsigned = (s1, none)) ∨
    (∃ s1 v, s.extract_unsigned = (s1, some v) ∧ begins_with_integer s.buf = true ∧
      s1.buf = after_integer s.buf ∧ s1.failbit = false ∧ s1.eofbit = s1.buf.isEmpty) := by
  rcases h : s.extract_unsigned with ⟨s1, _ | v⟩
  · exact Or.inl ⟨s1, rfl⟩
  · refine Or.inr ⟨s1, v, rfl, ?_, extract_unsigned_some s s1 v h⟩
    cases hb : begins_with_integer s.buf
    · have := extract_unsigned_none s hb
      rw [h] at this
      simp at this
    · rfl

/-- The length of a created key. -/
theorem create_length (r : chunk_t) :
    (create_chunk_key r).length
      = 9 + (if r.dimension ≠ 0 then 4 else 0) + (if r.subtag ≠ -1 then 1 else 0) := by
  unfold create_chunk_key
  by_cases hd : r.dimension = 0 <;> by_cases hs : r.subtag = -1 <;>
    simp [hd, hs, put_int32_length]

/-- Decoding a text that starts with `@` returns the empty string or a
created key. -/
theorem decode_key_at (pd : List Char → List Byte) (rest : List Char) :
    decode_key pd ('@' :: rest) = some [] ∨
    ∃ r : chunk_t, decode_key pd ('@' :: rest) = some (create_chunk_key r) := by
  simp only [decode_key, ne_eq, not_true_eq_false, if_false]
  repeat' split
  all_goals first
    | exact Or.inl rfl
    | exact Or.inr ⟨_, rfl⟩

/-- Decoding fails on a text after `@` in which a field is missing. -/
theorem decode_key_missing (pd : List Char → List Byte) (rest : List Char)
    (h : missing_field rest = true) : decode_key pd ('@' :: rest) = some [] := by
  simp only [decode_key, ne_eq, not_true_eq_false, if_false]
  rcases extract_int_step ⟨rest, false, false⟩ with
    ⟨s1, h1⟩ | ⟨s1, d, h1, hb0, hbuf1, hf1, he1⟩
  · simp only [h1]
  simp only [h1]
  have hc1 := ignore_if_colon_buf s1 hf1 he1
  rcases extract_int_step (s1.ignore_if ':') with
    ⟨s2, h2⟩ | ⟨s2, x, h2, hb1, hbuf2, hf2, he2⟩
  · simp only [h2]
  simp only [h2]
  have hc2 := ignore_if_colon_buf s2 hf2 he2
  rcases extract_int_step (s2.ignore_if ':') with
    ⟨s3, h3⟩ | ⟨s3, z, h3, hb2, hbuf3, hf3, he3⟩
  · simp only [h3]
  simp only [h3]
  have hc3 := ignore_if_colon_buf s3 hf3 he3
  rcases extract_unsigned_step (s3.ignore_if ':') with
    ⟨s4, h4⟩ | ⟨s4, t, h4, hb3, hbuf4, hf4, he4⟩
  · simp only [h4]
  simp only [h4]
  simp only at hbuf1
  rw [hc1, hbuf1] at hb1 hbuf2
  rw [hc2, hbuf2] at hb2 hbuf3
  rw [hc3, hbuf3] at hb3 hbuf4
  simp only [missing_field, hb0, hb1, hb2, hb3, Bool.not_true, Bool.or_self, Bool.false_or]
    at h
  obtain ⟨b4, e4, f4⟩ := s4
  simp only at hbuf4 hf4 he4
  rw [← hbuf4] at h
  cases b4 with
  | nil => simp at h
  | cons c r =>
    simp only [Bool.and_eq_true, decide_eq_true_eq, Bool.not_eq_true'] at h
    obtain ⟨hc, hr⟩ := h
    subst hc
    subst hf4
    subst he4
    rw [List.isEmpty_cons, peek_hyphen, if_pos rfl, ignore_cons]
    rcases extract_unsigned_step ⟨r, false, false⟩ with
      ⟨s5, h5⟩ | ⟨s5, sub, h5, hb5, _⟩
    · simp only [h5]
    · simp only at hb5
      rw [hr] at hb5
      exact absurd hb5 (by decide)


/-- C10. For a text that starts with `@`: when one of the four fields
`dimension`, `x`, `z`, `tag` is missing or does not begin with a decimal
integer where the decoder expects it (after the optional colon, white space
being skipped as the extraction does), or a hyphen after the tag is not
followed by a decimal integer, `decode_key` returns the empty string; and
whatever the text, `decode_key` returns the empty string or a complete key of
9, 10, 13 or 14 bytes, never a partial key. -/
theorem decode_key_malformed (pd : List Char → List Byte) (rest : List Char) :
    (missing_field rest = true → decode_key pd ('@' :: rest) = some []) ∧
    (∀ k : List Byte, decode_key pd ('@' :: rest) = some k →
      k = [] ∨ k.length = 9 ∨ k.length = 10 ∨ k.length = 13 ∨ k.length = 14) := by
  refine ⟨decode_key_missing pd rest, ?_⟩
  intro k hk
  rcases decode_key_at pd rest with h | ⟨r, h⟩
  · rw [h] at hk
    cases hk
    exact Or.inl rfl
  · rw [h] at hk
    cases hk
    right
    rw [create_length]
    by_cases hd : r.dimension = 0 <;> by_cases hs : r.subtag = -1 <;> simp [hd, hs]

/-- C10 at the texts `@`, `@1:2:3`, `@a:1:2:45`, `@0::1:2:45` and `@0:1:2:45-`. -/
theorem decode_key_malformed_witness :
    decode_key (fun _ => []) "@".toList = some [] ∧
    decode_key (fun _ => []) "@1:2:3".toList = some [] ∧
    decode_key (fun _ => []) "@a:1:2:45".toList = some [] ∧
    decode_key (fun _ => []) "@0::1:2:45".toList = some [] ∧
    decode_key (fun _ => []) "@0:1:2:45-".toList = some [] :=
  ⟨(decode_key_malformed (fun _ => []) "".toList).1 (by decide),
   (decode_key_malformed (fun _ => []) "1:2:3".toList).1 (by decide),
   (decode_key_malformed (fun _ => []) "a:1:2:45".toList).1 (by decide),
   (decode_key_malformed (fun _ => []) "0::1:2:45".toList).1 (by decide),
   (decode_key_malformed (fun _ => []) "0:1:2:45-".toList).1 (by decide)⟩



/-! ## The NBT reader: reads stay inside the buffer -/

/-- A read of `n` bytes that lies inside the buffer gives its bytes. -/
theorem read_bytes_inside (buf : List Byte) (p n : Nat) (h : p + n ≤ buf.length) :
    read_bytes buf p n = some ((buf.drop p).take n) := by
  simp [read_bytes, h]

/-- The call of `read_val` at a pointer inside the buffer does not read outside
the buffer, and a pointer it returns is not before `first`. -/
theorem read_val_inside (w : Nat) (mk : Nat → nbt_value) (buf : List Byte) (first : Nat)
    (name : List Byte) (v : List nbt_t) (h : first ≤ buf.length) :
    ∃ r, read_val w mk buf first name v = some r ∧ ∀ p1, r.1 = some p1 → first ≤ p1 := by
  unfold read_val
  rw [if_neg (by omega)]
  by_cases hw : buf.length - first < w
  · rw [if_pos hw]
    exact ⟨_, rfl, fun p1 hp => by simp at hp⟩
  · rw [if_neg hw, read_bytes_inside buf first w (by omega)]
    refine ⟨_, rfl, fun p1 hp => ?_⟩
    simp only [Option.some.injEq] at hp
    omega

/-- The call of `read_val_array` at a pointer inside the buffer does not read
outside the buffer, and a pointer it returns is not before `first`. -/
theorem read_val_array_inside (w size_T : Nat) (mk : Int → Nat → nbt_value) (buf : List Byte)
    (first : Nat) (name : List Byte) (v : List nbt_t) (h : first ≤ buf.length) :
    ∃ r, read_val_array w size_T mk buf first name v = some r ∧
      ∀ p1, r.1 = some p1 → first ≤ p1 := by
  unfold read_val_array
  rw [if_neg (by omega)]
  by_cases hw : buf.length - first < 4
  · rw [if_pos hw]
    exact ⟨_, rfl, fun p1 hp => by simp at hp⟩
  · rw [if_neg hw, read_bytes_inside buf first 4 (by omega)]
    simp only
    split
    · exact ⟨_, rfl, fun p1 hp => by simp at hp⟩
    · refine ⟨_, rfl, fun p1 hp => ?_⟩
      simp only [Option.some.injEq] at hp
      omega

/-- The call of `read_list` at a pointer inside the buffer does not read
outside the buffer, and a pointer it returns is not before `first`. -/
theorem read_list_inside (buf : List Byte) (first : Nat) (name : List Byte) (v : List nbt_t)
    (h : first ≤ buf.length) :
    ∃ r, read_list buf first name v = some r ∧ ∀ p1, r.1 = some p1 → first ≤ p1 := by
  unfold read_list
  rw [if_neg (by omega)]
  by_cases hw : buf.length - first < 1
  · rw [if_pos hw]
    exact ⟨_, rfl, fun p1 hp => by simp at hp⟩
  · rw [if_neg hw, read_bytes_inside buf first 1 (by omega)]
    simp only
    by_cases hw4 : buf.length - (first + 1) < 4
    · rw [if_pos hw4]
      exact ⟨_, rfl, fun p1 hp => by simp at hp⟩
    · rw [if_neg hw4, read_bytes_inside buf (first + 1) 4 (by omega)]
      refine ⟨_, rfl, fun p1 hp => ?_⟩
      simp only [Option.some.injEq] at hp
      omega

/-- The `switch` at a pointer inside the buffer does not read outside the
buffer, and the pointer it leaves in `p` is not before the pointer it got. -/
theorem nbt_switch_inside (sizeof_T : Nat → Nat) (buf : List Byte) (type p : Nat)
    (name : List Byte) (v : List nbt_t) (h : p ≤ buf.length) :
    nbt_switch sizeof_T buf type p name v ≠ switch_result.fault ∧
    ∀ p1 v1, nbt_switch sizeof_T buf type p name v = switch_result.break_ (some p1) v1 →
      p ≤ p1 := by
  have hval : ∀ (w : Nat) (mk : Nat → nbt_value),
      switch_assign (read_val w mk buf p name v) ≠ switch_result.fault ∧
      ∀ p1 v1, switch_assign (read_val w mk buf p name v)
        = switch_result.break_ (some p1) v1 → p ≤ p1 := by
    intro w mk
    obtain ⟨r, hr, hp⟩ := read_val_inside w mk buf p name v h
    rw [hr]
    refine ⟨by simp [switch_assign], fun p1 v1 he => hp p1 ?_⟩
    simp only [switch_assign, switch_result.break_.injEq] at he
    exact he.1
  have harr : ∀ (w s : Nat) (mk : Int → Nat → nbt_value),
      switch_assign (read_val_array w s mk buf p name v) ≠ switch_result.fault ∧
      ∀ p1 v1, switch_assign (read_val_array w s mk buf p name v)
        = switch_result.break_ (some p1) v1 → p ≤ p1 := by
    intro w s mk
    obtain ⟨r, hr, hp⟩ := read_val_array_inside w s mk buf p name v h
    rw [hr]
    refine ⟨by simp [switch_assign], fun p1 v1 he => hp p1 ?_⟩
    simp only [switch_assign, switch_result.break_.injEq] at he
    exact he.1
  unfold nbt_switch
  split
  · exact hval _ _
  · exact hval _ _
  · exact hval _ _
  · exact hval _ _
  · exact hval _ _
  · exact hval _ _
  · exact harr _ _ _
  · exact harr _ _ _
  · exact harr _ _ _
  · exact harr _ _ _
  · refine ⟨by simp, fun p1 v1 he => ?_⟩
    simp only [switch_result.break_.injEq, Option.some.injEq] at he
    omega
  · obtain ⟨r, hr, hp⟩ := read_list_inside buf p name v h
    obtain ⟨r1, r2⟩ := r
    rw [hr]
    cases r1 with
    | none => exact ⟨by simp, fun p1 v1 he => by simp at he⟩
    | some q =>
      refine ⟨by simp, fun p1 v1 he => ?_⟩
      simp only [switch_result.break_.injEq, Option.some.injEq] at he
      have := hp q rfl
      omega
  · exact ⟨by simp, fun p1 v1 he => by simp at he⟩


/-- With more fuel than bytes left, the loop of `parse_nbt` returns: it does
not read outside the buffer and it does not run out of fuel. -/
theorem nbt_loop_returns (sizeof_T : Nat → Nat) (buf : List Byte) :
    ∀ (fuel p : Nat) (v : List nbt_t), buf.length - p < fuel →
      ∃ b nodes c, nbt_loop sizeof_T buf fuel p v = outcome.returned b nodes c := by
  intro fuel
  induction fuel with
  | zero => intro p v h; omega
  | succ fuel ih =>
    intro p v h
    unfold nbt_loop
    by_cases hp : p < buf.length
    · rw [if_pos hp, List.getElem?_eq_getElem hp]
      simp only
      by_cases h0 : (buf[p]).val = 0
      · rw [if_pos h0]
        exact ih (p + 1) _ (by omega)
      · rw [if_neg h0]
        by_cases h2 : buf.length - (p + 1) < 2
        · rw [if_pos h2]
          exact ⟨_, _, _, rfl⟩
        · rw [if_neg h2, read_bytes_inside buf (p + 1) 2 (by omega)]
          simp only
          split
          · exact ⟨_, _, _, rfl⟩
          · obtain ⟨hnf, hle⟩ := nbt_switch_inside sizeof_T buf (buf[p]).val (p + 3)
              (List.take (le_nat (List.take 2 (List.drop (p + 1) buf))) (List.drop (p + 3) buf))
              v (by omega)
            split
            · rename_i hs
              exact absurd hs hnf
            · exact ⟨_, _, _, rfl⟩
            · exact ⟨_, _, _, rfl⟩
            · rename_i p1 v1 hs
              have := hle p1 v1 hs
              exact ih p1 v1 (by omega)
    · rw [if_neg hp]
      exact ⟨_, _, _, rfl⟩

/-- Every run of `parse_nbt` returns. -/
theorem parse_nbt_run_returns (sizeof_T : Nat → Nat) (buf : List Byte) :
    ∃ b nodes c, parse_nbt_run sizeof_T buf = outcome.returned b nodes c := by
  unfold parse_nbt_run
  by_cases h : buf.length = 0
  · rw [if_pos h]
    exact ⟨_, _, _, rfl⟩
  · rw [if_neg h]
    exact nbt_loop_returns sizeof_T buf (buf.length + 1) 0 [] (by omega)

/-- C11. On the empty buffer `parse_nbt` returns `true` and has read no node. -/
theorem parse_nbt_empty (sizeof_T : Nat → Nat) :
    parse_nbt sizeof_T [] = some true ∧
    parse_nbt_run sizeof_T [] = outcome.returned true [] (some 0) :=
  ⟨rfl, rfl⟩

/-- C17. For every buffer, well-formed or not, and whatever the sizes of the
array view structures, the run of `parse_nbt` returns a value: no read of a
tag byte, of a name length, of a payload, of a count or of a list header
falls outside the buffer (the fault outcome of the embedding is not reached),
and the number of iterations is bounded by the length of the buffer. -/
theorem parse_nbt_reads_inside (sizeof_T : Nat → Nat) (buf : List Byte) :
    (∃ b nodes c, parse_nbt_run sizeof_T buf = outcome.returned b nodes c) ∧
    parse_nbt_run sizeof_T buf ≠ outcome.fault ∧
    parse_nbt_run sizeof_T buf ≠ outcome.out_of_fuel ∧
    (∃ b, parse_nbt sizeof_T buf = some b) := by
  obtain ⟨b, nodes, c, h⟩ := parse_nbt_run_returns sizeof_T buf
  refine ⟨⟨b, nodes, c, h⟩, ?_, ?_, ⟨b, ?_⟩⟩
  · rw [h]
    simp
  · rw [h]
    simp
  · simp [parse_nbt, outcome.value, h]


/-! ## The NBT reader: rejected buffers -/

/-- The `default` case of the `switch`: a type tag above 12 returns `false`. -/
theorem nbt_switch_default (sizeof_T : Nat → Nat) (buf : List Byte) (type p : Nat)
    (name : List Byte) (v : List nbt_t) (h : 12 < type) :
    nbt_switch sizeof_T buf type p name v = switch_result.return_false v := by
  unfold nbt_switch
  split <;> first | omega | rfl

/-- One iteration of the loop at a type tag above 12 returns `false`. -/
theorem nbt_loop_unknown_tag (sizeof_T : Nat → Nat) (buf : List Byte) (fuel p : Nat)
    (v : List nbt_t) (t : Byte) (ht : buf[p]? = some t) (h : 12 < t.val) :
    ∃ c, nbt_loop sizeof_T buf (fuel + 1) p v = outcome.returned false v c := by
  have hp : p < buf.length := by
    by_contra hn
    rw [List.getElem?_eq_none (by omega)] at ht
    simp at ht
  unfold nbt_loop
  rw [if_pos hp, ht]
  simp only
  rw [if_neg (by omega)]
  by_cases h2 : buf.length - (p + 1) < 2
  · rw [if_pos h2]
    exact ⟨_, rfl⟩
  · rw [if_neg h2, read_bytes_inside buf (p + 1) 2 (by omega)]
    simp only
    split
    · exact ⟨_, rfl⟩
    · rw [nbt_switch_default sizeof_T buf t.val _ _ v h]
      exact ⟨_, rfl⟩

/-- C14. When the byte read as a type tag at the pointer `p` is not one of
the 13 tag values 0..12, the loop of `parse_nbt` returns `false` in that
iteration, whatever bytes follow; in particular `parse_nbt` returns `false`
for every buffer whose first byte is not in 0..12. -/
theorem parse_nbt_unknown_tag (sizeof_T : Nat → Nat) (buf : List Byte) :
    (∀ (fuel p : Nat) (v : List nbt_t) (t : Byte), buf[p]? = some t → 12 < t.val →
      ∃ c, nbt_loop sizeof_T buf (fuel + 1) p v = outcome.returned false v c) ∧
    (∀ t : Byte, buf[0]? = some t → 12 < t.val → parse_nbt sizeof_T buf = some false) := by
  refine ⟨fun fuel p v t ht h => nbt_loop_unknown_tag sizeof_T buf fuel p v t ht h, ?_⟩
  intro t ht h
  have hne : buf.length ≠ 0 := by
    intro h0
    rw [List.getElem?_eq_none (by omega)] at ht
    simp at ht
  obtain ⟨c, hc⟩ := nbt_loop_unknown_tag sizeof_T buf buf.length 0 [] t ht h
  simp [parse_nbt, outcome.value, parse_nbt_run, hne, hc]

/-- C14 at the buffers `0D 00 00 05` (first byte 13) and `FF`, and at the
pointer 4 of `01 00 00 05 0D 00 00 07`, where the tag 13 follows a Byte node. -/
theorem parse_nbt_unknown_tag_witness :
    parse_nbt (fun _ => 16) [0x0D, 0, 0, 5] = some false ∧
    parse_nbt (fun _ => 16) [0xFF] = some false ∧
    (∃ c, nbt_loop (fun _ => 16) [1, 0, 0, 5, 0x0D, 0, 0, 7] 5 4
        [⟨some [], nbt_value.int8_t 5⟩]
      = outcome.returned false [⟨some [], nbt_value.int8_t 5⟩] c) ∧
    parse_nbt (fun _ => 16) [1, 0, 0, 5, 0x0D, 0, 0, 7] = some false :=
  ⟨(parse_nbt_unknown_tag (fun _ => 16) [0x0D, 0, 0, 5]).2 0x0D rfl (by decide),
   (parse_nbt_unknown_tag (fun _ => 16) [0xFF]).2 0xFF rfl (by decide),
   (parse_nbt_unknown_tag (fun _ => 16) [1, 0, 0, 5, 0x0D, 0, 0, 7]).1 4 4 _ 0x0D rfl
     (by decide),
   by decide⟩


/-- The `int32_t` read from four bytes is the little-endian signed integer. -/
theorem to_signed_four (c0 c1 c2 c3 : Byte) :
    to_signed 4 (le_nat [c0, c1, c2, c3]) = le_signed32 [c0, c1, c2, c3] := by
  have h0 := c0.isLt
  have h1 := c1.isLt
  have h2 := c2.isLt
  have h3 := c3.isLt
  have hp : (256 : Nat) ^ 4 = 4294967296 := by norm_num
  simp only [to_signed, le_nat, le_signed32, List.foldr, hp]
  split <;> split <;> omega

/-- The little-endian signed integer of four bytes is a 32-bit value. -/
theorem le_signed32_range (c0 c1 c2 c3 : Byte) :
    -2147483648 ≤ le_signed32 [c0, c1, c2, c3] ∧ le_signed32 [c0, c1, c2, c3] ≤ 2147483647 := by
  have h0 := c0.isLt
  have h1 := c1.isLt
  have h2 := c2.isLt
  have h3 := c3.isLt
  simp only [le_signed32, List.foldr]
  split <;> omega

/-- The call of `read_val_array` returns `nullptr` when fewer than four bytes
are left for the count. -/
theorem read_val_array_short (w size_T : Nat) (mk : Int → Nat → nbt_value) (buf : List Byte)
    (first : Nat) (name : List Byte) (v : List nbt_t) (h : first ≤ buf.length)
    (hs : buf.length - first < 4) :
    read_val_array w size_T mk buf first name v = some (none, v) := by
  unfold read_val_array
  rw [if_neg (by omega), if_pos hs]

/-- The call of `read_val_array` returns `nullptr` when the count is negative
or the elements it announces do not fit in the bytes after the count. -/
theorem read_val_array_count (w size_T : Nat) (mk : Int → Nat → nbt_value)
    (pre : List Byte) (c0 c1 c2 c3 : Byte) (body name : List Byte) (v : List nbt_t)
    (hw : w = 1 ∨ w = 4 ∨ w = 8)
    (hlen : (pre ++ c0 :: c1 :: c2 :: c3 :: body).length < 9223372036854775808)
    (hc : le_signed32 [c0, c1, c2, c3] < 0 ∨
      (body.length : Int) < le_signed32 [c0, c1, c2, c3] * (w : Int)) :
    read_val_array w size_T mk (pre ++ c0 :: c1 :: c2 :: c3 :: body) pre.length name v
      = some (none, v) := by
  have hr := le_signed32_range c0 c1 c2 c3
  have hl : (pre ++ c0 :: c1 :: c2 :: c3 :: body).length = pre.length + (body.length + 4) := by
    simp
  have hb : read_bytes (pre ++ c0 :: c1 :: c2 :: c3 :: body) pre.length 4
      = some [c0, c1, c2, c3] := by
    rw [read_bytes_inside _ _ _ (by omega)]
    simp
  unfold read_val_array
  rw [if_neg (by omega), if_neg (by omega), hb]
  simp only [to_signed_four]
  rw [if_pos]
  rw [hl] at hlen ⊢
  rcases hw with rfl | rfl | rfl <;> omega


/-- The first iteration of the loop on a buffer that starts with a tag other
than `END` and an empty name: the `switch` runs at the offset 3. -/
theorem nbt_loop_head (sizeof_T : Nat → Nat) (t : Byte) (rest : List Byte) (fuel : Nat)
    (ht : t.val ≠ 0) :
    nbt_loop sizeof_T (t :: 0 :: 0 :: rest) (fuel + 1) 0 []
      = match nbt_switch sizeof_T (t :: 0 :: 0 :: rest) t.val 3 [] [] with
        | switch_result.fault => outcome.fault
        | switch_result.return_false v1 => outcome.returned false v1 (some 3)
        | switch_result.break_ none v1 => outcome.returned false v1 none
        | switch_result.break_ (some p1) v1 =>
          nbt_loop sizeof_T (t :: 0 :: 0 :: rest) fuel p1 v1 := by
  rw [nbt_loop]
  simp [ht, read_bytes, le_nat]

/-- A rejected array at the head of the buffer makes `parse_nbt` return `false`. -/
theorem parse_nbt_array_head (sizeof_T : Nat → Nat) (t : Byte) (rest : List Byte)
    (ht : t.val = 7 ∨ t.val = 8 ∨ t.val = 11 ∨ t.val = 12)
    (h : ∀ (mk : Int → Nat → nbt_value),
      read_val_array (element_width t.val) (sizeof_T t.val) mk (t :: 0 :: 0 :: rest) 3 [] []
        = some (none, [])) :
    parse_nbt sizeof_T (t :: 0 :: 0 :: rest) = some false := by
  have ht0 : t.val ≠ 0 := by omega
  simp only [parse_nbt, parse_nbt_run, List.length_cons, Nat.add_one_ne_zero, if_false]
  rw [nbt_loop_head sizeof_T t rest _ ht0]
  rcases ht with ht | ht | ht | ht <;> rw [ht] at h ⊢ <;> simp only [nbt_switch, h, switch_assign, outcome.value]

/-- C13. For a buffer that starts with a tag 7 (ByteArray), 8 (String),
11 (IntArray) or 12 (LongArray), an empty name and a little-endian 32-bit
count, `parse_nbt` returns `false` when fewer than four bytes are there for
the count, when the count is negative, and when the count times the element
width (1, 1, 4, 8) exceeds the number of bytes after the count. The buffer is
shorter than `2^63` bytes, as every buffer is. -/
theorem parse_nbt_array_rejected (sizeof_T : Nat → Nat) (t : Byte) (rest : List Byte)
    (ht : t.val = 7 ∨ t.val = 8 ∨ t.val = 11 ∨ t.val = 12)
    (hlen : (t :: 0 :: 0 :: rest).length < 9223372036854775808) :
    (rest.length < 4 → parse_nbt sizeof_T (t :: 0 :: 0 :: rest) = some false) ∧
    (∀ (c0 c1 c2 c3 : Byte) (body : List Byte), rest = c0 :: c1 :: c2 :: c3 :: body →
      (le_signed32 [c0, c1, c2, c3] < 0 ∨
        (body.length : Int) < le_signed32 [c0, c1, c2, c3] * (element_width t.val : Int)) →
      parse_nbt sizeof_T (t :: 0 :: 0 :: rest) = some false) := by
  constructor
  · intro hs
    apply parse_nbt_array_head sizeof_T t rest ht
    intro mk
    exact read_val_array_short _ _ mk _ 3 [] [] (by simp) (by simpa using hs)
  · intro c0 c1 c2 c3 body hrest hc
    subst hrest
    apply parse_nbt_array_head sizeof_T t _ ht
    intro mk
    have hw : element_width t.val = 1 ∨ element_width t.val = 4 ∨ element_width t.val = 8 := by
      rcases ht with ht | ht | ht | ht <;> rw [ht] <;> simp [element_width]
    exact read_val_array_count (element_width t.val) (sizeof_T t.val) mk [t, 0, 0]
      c0 c1 c2 c3 body [] [] hw hlen hc

/-- C13 at the buffer `08 00 00 05 00 00 00 61 62 63`, a String that announces
5 bytes with 3 bytes left, at a ByteArray with the count `-1`, and at an
IntArray with two bytes for the count. -/
theorem parse_nbt_array_rejected_witness :
    parse_nbt (fun _ => 16) [8, 0, 0, 5, 0, 0, 0, 0x61, 0x62, 0x63] = some false ∧
    parse_nbt (fun _ => 16) [7, 0, 0, 0xFF, 0xFF, 0xFF, 0xFF, 0x61] = some false ∧
    parse_nbt (fun _ => 16) [11, 0, 0, 1, 0] = some false :=
  ⟨(parse_nbt_array_rejected (fun _ => 16) 8 [5, 0, 0, 0, 0x61, 0x62, 0x63]
      (by decide) (by decide)).2 5 0 0 0 [0x61, 0x62, 0x63] rfl (by decide),
   (parse_nbt_array_rejected (fun _ => 16) 7 [0xFF, 0xFF, 0xFF, 0xFF, 0x61]
      (by decide) (by decide)).2 0xFF 0xFF 0xFF 0xFF [0x61] rfl (by decide),
   (parse_nbt_array_rejected (fun _ => 16) 11 [1, 0] (by decide) (by decide)).1 (by decide)⟩


/-! ## The NBT reader: no nesting is kept -/

/-- A read behind a prefix is the read in the buffer without the prefix. -/
theorem read_bytes_shift (pre b : List Byte) (p n : Nat) :
    read_bytes (pre ++ b) (pre.length + p) n = read_bytes b p n := by
  simp only [read_bytes, List.length_append, List.drop_append, Nat.add_assoc,
    Nat.add_le_add_iff_left]

/-- The pointer `read_val` returns behind a prefix is the pointer it returns
without the prefix, moved by the length of the prefix. -/
theorem read_val_shift (w : Nat) (mk : Nat → nbt_value) (pre b : List Byte) (p : Nat)
    (n1 n2 : List Byte) (v1 v2 : List nbt_t) :
    (read_val w mk (pre ++ b) (pre.length + p) n1 v1).map (fun r => r.1)
      = (read_val w mk b p n2 v2).map (fun r => r.1.map (fun q => pre.length + q)) := by
  simp only [read_val, read_bytes_shift, List.length_append, Nat.add_lt_add_iff_left,
    Nat.add_sub_add_left]
  by_cases h1 : b.length < p
  · simp [h1]
  · rw [if_neg h1, if_neg h1]
    by_cases h2 : b.length - p < w
    · simp [h2]
    · rw [if_neg h2, if_neg h2]
      cases read_bytes b p w with
      | none => rfl
      | some bs => simp [Nat.add_assoc]

/-- The pointer `read_val_array` returns behind a prefix is the pointer it
returns without the prefix, moved by the length of the prefix. -/
theorem read_val_array_shift (w s : Nat) (mk : Int → Nat → nbt_value) (pre b : List Byte)
    (p : Nat) (n1 n2 : List Byte) (v1 v2 : List nbt_t) :
    (read_val_array w s mk (pre ++ b) (pre.length + p) n1 v1).map (fun r => r.1)
      = (read_val_array w s mk b p n2 v2).map (fun r => r.1.map (fun q => pre.length + q)) := by
  simp only [read_val_array, read_bytes_shift, List.length_append, Nat.add_lt_add_iff_left,
    Nat.add_sub_add_left, Nat.add_assoc]
  by_cases h1 : b.length < p
  · simp [h1]
  · rw [if_neg h1, if_neg h1]
    by_cases h2 : b.length - p < 4
    · simp [h2]
    · rw [if_neg h2, if_neg h2]
      cases read_bytes b p 4 with
      | none => rfl
      | some bs =>
        simp only [Option.map_some']
        split <;> simp [Nat.add_assoc]

/-- The pointer `read_list` returns behind a prefix is the pointer it returns
without the prefix, moved by the length of the prefix. -/
theorem read_list_shift (pre b : List Byte) (p : Nat) (n1 n2 : List Byte)
    (v1 v2 : List nbt_t) :
    (read_list (pre ++ b) (pre.length + p) n1 v1).map (fun r => r.1)
      = (read_list b p n2 v2).map (fun r => r.1.map (fun q => pre.length + q)) := by
  simp only [read_list, read_bytes_shift, List.length_append, Nat.add_lt_add_iff_left,
    Nat.add_sub_add_left, Nat.add_assoc]
  by_cases h1 : b.length < p
  · simp [h1]
  · rw [if_neg h1, if_neg h1]
    by_cases h2 : b.length - p < 1
    · simp [h2]
    · rw [if_neg h2, if_neg h2]
      cases read_bytes b p 1 with
      | none => rfl
      | some bt =>
        simp only [Option.map_some']
        by_cases h3 : b.length - (p + 1) < 4
        · simp [h3]
        · rw [if_neg h3, if_neg h3]
          cases read_bytes b (p + 1) 4 with
          | none => rfl
          | some bs => simp [Nat.add_assoc]


/-- The assignment of a moved pointer. -/
theorem switch_assign_shift (k : Nat) (r1 r2 : Option (Option Nat × List nbt_t))
    (h : r1.map (fun r => r.1) = r2.map (fun r => r.1.map (fun q => k + q))) :
    (switch_assign r1).kind
      = (switch_assign r2).kind.map (Option.map (Option.map (fun q => k + q))) := by
  cases r1 with
  | none =>
    cases r2 with
    | none => rfl
    | some x => simp at h
  | some x =>
    cases r2 with
    | none => simp at h
    | some y =>
      obtain ⟨x1, x2⟩ := x
      obtain ⟨y1, y2⟩ := y
      simp only [Option.map_some', Option.some.injEq] at h
      simp [switch_assign, switch_result.kind, h]

/-- What the `switch` does behind a prefix is what it does without the prefix,
with the pointer moved by the length of the prefix. -/
theorem nbt_switch_shift (sizeof_T : Nat → Nat) (pre b : List Byte) (type p : Nat)
    (n1 n2 : List Byte) (v1 v2 : List nbt_t) :
    (nbt_switch sizeof_T (pre ++ b) type (pre.length + p) n1 v1).kind
      = (nbt_switch sizeof_T b type p n2 v2).kind.map
          (Option.map (Option.map (fun q => pre.length + q))) := by
  unfold nbt_switch
  split
  · exact switch_assign_shift _ _ _ (read_val_shift _ _ pre b p n1 n2 v1 v2)
  · exact switch_assign_shift _ _ _ (read_val_shift _ _ pre b p n1 n2 v1 v2)
  · exact switch_assign_shift _ _ _ (read_val_shift _ _ pre b p n1 n2 v1 v2)
  · exact switch_assign_shift _ _ _ (read_val_shift _ _ pre b p n1 n2 v1 v2)
  · exact switch_assign_shift _ _ _ (read_val_shift _ _ pre b p n1 n2 v1 v2)
  · exact switch_assign_shift _ _ _ (read_val_shift _ _ pre b p n1 n2 v1 v2)
  · exact switch_assign_shift _ _ _ (read_val_array_shift _ _ _ pre b p n1 n2 v1 v2)
  · exact switch_assign_shift _ _ _ (read_val_array_shift _ _ _ pre b p n1 n2 v1 v2)
  · exact switch_assign_shift _ _ _ (read_val_array_shift _ _ _ pre b p n1 n2 v1 v2)
  · exact switch_assign_shift _ _ _ (read_val_array_shift _ _ _ pre b p n1 n2 v1 v2)
  · rfl
  · have h := read_list_shift pre b p n1 n2 v1 v2
    cases h1 : read_list (pre ++ b) (pre.length + p) n1 v1 with
    | none =>
      cases h2 : read_list b p n2 v2 with
      | none => rfl
      | some y => rw [h1, h2] at h; simp at h
    | some x =>
      cases h2 : read_list b p n2 v2 with
      | none => rw [h1, h2] at h; simp at h
      | some y =>
        rw [h1, h2] at h
        obtain ⟨x1, x2⟩ := x
        obtain ⟨y1, y2⟩ := y
        simp only [Option.map_some', Option.some.injEq] at h
        subst h
        cases y1 <;> rfl
  · rfl


/-- The loop of `parse_nbt` keeps no state besides the pointer: behind a
prefix it returns what it returns without the prefix. -/
theorem nbt_loop_shift (sizeof_T : Nat → Nat) (pre b : List Byte) :
    ∀ (fuel1 fuel2 q : Nat) (v1 v2 : List nbt_t), b.length - q < fuel1 → b.length - q < fuel2 →
      (nbt_loop sizeof_T (pre ++ b) fuel1 (pre.length + q) v1).value
        = (nbt_loop sizeof_T b fuel2 q v2).value := by
  intro fuel1
  induction fuel1 with
  | zero => intro fuel2 q v1 v2 h; omega
  | succ fuel1 ih =>
    intro fuel2 q v1 v2 h1 h2
    cases fuel2 with
    | zero => omega
    | succ fuel2 =>
      rw [nbt_loop, nbt_loop]
      by_cases hq : q < b.length
      · have hq1 : pre.length + q < (pre ++ b).length := by
          rw [List.length_append]
          omega
        have hg : (pre ++ b)[pre.length + q]? = some b[q] := by
          rw [List.getElem?_append_right (by omega), Nat.add_sub_cancel_left,
            List.getElem?_eq_getElem hq]
        rw [if_pos hq1, if_pos hq, hg, List.getElem?_eq_getElem hq]
        simp only
        by_cases h0 : (b[q]).val = 0
        · rw [if_pos h0, if_pos h0, Nat.add_assoc]
          exact ih fuel2 (q + 1) _ _ (by omega) (by omega)
        · rw [if_neg h0, if_neg h0]
          have e1 : (pre ++ b).length - (pre.length + q + 1) = b.length - (q + 1) := by
            rw [List.length_append]
            omega
          have e3 : (pre ++ b).length - (pre.length + q + 3) = b.length - (q + 3) := by
            rw [List.length_append]
            omega
          rw [e1, e3]
          by_cases hl : b.length - (q + 1) < 2
          · rw [if_pos hl, if_pos hl]
            rfl
          · rw [if_neg hl, if_neg hl, Nat.add_assoc, read_bytes_shift,
              read_bytes_inside b (q + 1) 2 (by omega)]
            simp only
            by_cases hn : b.length - (q + 3) < le_nat (List.take 2 (List.drop (q + 1) b))
            · rw [if_pos hn, if_pos hn]
              rfl
            · rw [if_neg hn, if_neg hn]
              have hk := nbt_switch_shift sizeof_T pre b (b[q]).val (q + 3)
                (List.take (le_nat (List.take 2 (List.drop (q + 1) b)))
                  (List.drop (pre.length + q + 3) (pre ++ b)))
                (List.take (le_nat (List.take 2 (List.drop (q + 1) b))) (List.drop (q + 3) b))
                v1 v2
              have hin := (nbt_switch_inside sizeof_T b (b[q]).val (q + 3)
                (List.take (le_nat (List.take 2 (List.drop (q + 1) b))) (List.drop (q + 3) b))
                v2 (by omega)).2
              rw [← Nat.add_assoc] at hk
              cases hs1 : nbt_switch sizeof_T (pre ++ b) (b[q]).val (pre.length + q + 3)
                (List.take (le_nat (List.take 2 (List.drop (q + 1) b)))
                  (List.drop (pre.length + q + 3) (pre ++ b))) v1 with
              | fault =>
                cases hs2 : nbt_switch sizeof_T b (b[q]).val (q + 3)
                  (List.take (le_nat (List.take 2 (List.drop (q + 1) b)))
                    (List.drop (q + 3) b)) v2 with
                | fault => rfl
                | return_false w2 => rw [hs1, hs2] at hk; simp [switch_result.kind] at hk
                | break_ p2 w2 => rw [hs1, hs2] at hk; simp [switch_result.kind] at hk
              | return_false w1 =>
                cases hs2 : nbt_switch sizeof_T b (b[q]).val (q + 3)
                  (List.take (le_nat (List.take 2 (List.drop (q + 1) b)))
                    (List.drop (q + 3) b)) v2 with
                | fault => rw [hs1, hs2] at hk; simp [switch_result.kind] at hk
                | return_false w2 => rfl
                | break_ p2 w2 => rw [hs1, hs2] at hk; simp [switch_result.kind] at hk
              | break_ p1 w1 =>
                cases hs2 : nbt_switch sizeof_T b (b[q]).val (q + 3)
                  (List.take (le_nat (List.take 2 (List.drop (q + 1) b)))
                    (List.drop (q + 3) b)) v2 with
                | fault => rw [hs1, hs2] at hk; simp [switch_result.kind] at hk
                | return_false w2 => rw [hs1, hs2] at hk; simp [switch_result.kind] at hk
                | break_ p2 w2 =>
                  rw [hs1, hs2] at hk
                  simp only [switch_result.kind, Option.map_some', Option.some.injEq] at hk
                  cases p2 with
                  | none =>
                    simp only [Option.map_none'] at hk
                    subst hk
                    rfl
                  | some q2 =>
                    simp only [Option.map_some'] at hk
                    subst hk
                    have := hin q2 w2 hs2
                    exact ih fuel2 q2 w1 w2 (by omega) (by omega)
      · have hq1 : ¬ pre.length + q < (pre ++ b).length := by
          rw [List.length_append]
          omega
        rw [if_neg hq1, if_neg hq]
        rfl


/-- The value `parse_nbt` returns is the value of the loop started at the
beginning of the buffer, also for the empty buffer. -/
theorem parse_nbt_eq_loop (sizeof_T : Nat → Nat) (b : List Byte) :
    parse_nbt sizeof_T b = (nbt_loop sizeof_T b (b.length + 1) 0 []).value := by
  cases b with
  | nil => rfl
  | cons a r => simp [parse_nbt, parse_nbt_run]

/-- A Compound header with an empty name in front of a buffer does not change
what `parse_nbt` returns. -/
theorem parse_nbt_compound_head (sizeof_T : Nat → Nat) (b : List Byte) :
    parse_nbt sizeof_T (10 :: 0 :: 0 :: b) = parse_nbt sizeof_T b := by
  rw [parse_nbt_eq_loop, parse_nbt_eq_loop, nbt_loop_head sizeof_T 10 b _ (by decide)]
  have h := nbt_loop_shift sizeof_T [10, 0, 0] b (b.length + 3) (b.length + 1) 0
    [⟨none, nbt_value.nbt_compound_t⟩] [] (by omega) (by omega)
  simpa [nbt_switch] using h

/-- C12, as stated, fails: the buffer `0A 00 00`, a Compound header with an
empty name, no further node and no End marker, is accepted. -/
theorem parse_nbt_unclosed_compound_counterexample :
    parse_nbt (fun _ => 16) [0x0A, 0, 0] = some true ∧
    (∀ sizeof_T : Nat → Nat,
      parse_nbt sizeof_T [0x0A, 0, 0] = some true ∧
      parse_nbt_run sizeof_T [0x0A, 0, 0]
        = outcome.returned true [⟨none, nbt_value.nbt_compound_t⟩] (some 3)) :=
  ⟨rfl, fun _ => ⟨rfl, rfl⟩⟩

/-- C12, amended. The reader keeps no nesting state, and a Compound that is
not closed is no error: for every buffer `b`, `parse_nbt` returns for a
Compound header with an empty name followed by `b` what it returns for `b`
alone, whether or not `b` holds an End marker; the buffer `0A 00 00` is
accepted, and so is `0A 00 00` followed by a Byte node. -/
theorem parse_nbt_unclosed_compound (sizeof_T : Nat → Nat) (b : List Byte) :
    parse_nbt sizeof_T (0x0A :: 0 :: 0 :: b) = parse_nbt sizeof_T b ∧
    parse_nbt sizeof_T [0x0A, 0, 0] = some true ∧
    parse_nbt sizeof_T [0x0A, 0, 0, 1, 0, 0, 5] = some true :=
  ⟨parse_nbt_compound_head sizeof_T b, rfl, rfl⟩


/-! ## The NBT reader: where the pointer is left after a node -/

/-- After a List node with an empty name the loop goes on at the offset 8, the
end of the list header, whatever the element count. -/
theorem nbt_loop_list_head (sizeof_T : Nat → Nat) (ty c0 c1 c2 c3 : Byte) (b : List Byte)
    (fuel : Nat) :
    nbt_loop sizeof_T (9 :: 0 :: 0 :: ty :: c0 :: c1 :: c2 :: c3 :: b) (fuel + 1) 0 []
      = nbt_loop sizeof_T (9 :: 0 :: 0 :: ty :: c0 :: c1 :: c2 :: c3 :: b) fuel 8
          [⟨some [], nbt_value.nbt_list_t (le_signed32 [c0, c1, c2, c3])
            (to_signed 1 (le_nat [ty]))⟩] := by
  rw [nbt_loop_head sizeof_T 9 _ _ (by decide)]
  simp [nbt_switch, read_list, read_bytes, to_signed_four]
  rw [if_neg (by omega)]

/-- After a Byte node whose name fits in the buffer the loop goes on at the
offset 4: the value of the node is the byte at the offset 3, which is the
first byte of the name when the name is not empty. -/
theorem nbt_loop_byte_head (sizeof_T : Nat → Nat) (l0 l1 a : Byte) (rest : List Byte)
    (fuel : Nat) (h : le_nat [l0, l1] ≤ (a :: rest).length) :
    nbt_loop sizeof_T (1 :: l0 :: l1 :: a :: rest) (fuel + 1) 0 []
      = nbt_loop sizeof_T (1 :: l0 :: l1 :: a :: rest) fuel 4
          [⟨some ((a :: rest).take (le_nat [l0, l1])),
            nbt_value.int8_t (to_signed 1 (le_nat [a]))⟩] := by
  rw [nbt_loop]
  have h' : ¬ (rest.length + 1 < le_nat [l0, l1]) := by
    simp only [List.length_cons] at h
    omega
  simp [read_bytes, nbt_switch, switch_assign, read_val, h']
  rw [if_neg (by omega), if_neg (by omega)]

/-- The pointer `read_val_array` returns for a count that is not negative and
fits in the buffer: the end of the count plus the count times `sizeof(T)`. -/
theorem read_val_array_cursor (w size_T : Nat) (mk : Int → Nat → nbt_value)
    (pre : List Byte) (c0 c1 c2 c3 : Byte) (body name : List Byte) (v : List nbt_t)
    (hc : 0 ≤ le_signed32 [c0, c1, c2, c3])
    (hfit : le_signed32 [c0, c1, c2, c3] * (w : Int) ≤ (body.length : Int)) :
    read_val_array w size_T mk (pre ++ c0 :: c1 :: c2 :: c3 :: body) pre.length name v
      = some (some (pre.length + 4
            + (size_T * (le_signed32 [c0, c1, c2, c3]).toNat) % 18446744073709551616),
          v ++ [⟨some name, mk (le_signed32 [c0, c1, c2, c3]) (pre.length + 4)⟩]) := by
  have hr := le_signed32_range c0 c1 c2 c3
  have hl : (pre ++ c0 :: c1 :: c2 :: c3 :: body).length = pre.length + (body.length + 4) := by
    simp
  have hb : read_bytes (pre ++ c0 :: c1 :: c2 :: c3 :: body) pre.length 4
      = some [c0, c1, c2, c3] := by
    rw [read_bytes_inside _ _ _ (by omega)]
    simp
  have hu : (le_signed32 [c0, c1, c2, c3] % 18446744073709551616).toNat
      = (le_signed32 [c0, c1, c2, c3]).toNat := by omega
  have hm : (w * (le_signed32 [c0, c1, c2, c3]).toNat) % 18446744073709551616
      ≤ w * (le_signed32 [c0, c1, c2, c3]).toNat := Nat.mod_le _ _
  have hwc : w * (le_signed32 [c0, c1, c2, c3]).toNat ≤ body.length := by
    have e : ((w * (le_signed32 [c0, c1, c2, c3]).toNat : Nat) : Int)
        = le_signed32 [c0, c1, c2, c3] * (w : Int) := by
      rw [Nat.cast_mul, Int.toNat_of_nonneg hc, Int.mul_comm]
    omega
  unfold read_val_array
  rw [if_neg (by omega), if_neg (by omega), hb]
  simp only [to_signed_four, hu]
  rw [if_neg (by rw [hl]; omega)]


/-- C15 fails on the code: the List node `09 00 00 01 02 00 00 00` followed by
its two one-byte elements `0D 0D` is rejected. The loop goes on at the offset
8, the end of the list header, for every element count, so that the first
element is read as the type tag of a node. -/
theorem parse_nbt_list_body_not_consumed :
    parse_nbt (fun _ => 16) [9, 0, 0, 1, 2, 0, 0, 0, 0x0D, 0x0D] = some false ∧
    ∀ sizeof_T : Nat → Nat,
      parse_nbt sizeof_T [9, 0, 0, 1, 2, 0, 0, 0, 0x0D, 0x0D] = some false ∧
      parse_nbt_run sizeof_T [9, 0, 0, 1, 2, 0, 0, 0, 0x0D, 0x0D]
        = outcome.returned false [⟨some [], nbt_value.nbt_list_t 2 1⟩] (some 9) ∧
      (∀ (c0 c1 c2 c3 : Byte) (b : List Byte) (fuel : Nat),
        nbt_loop sizeof_T (9 :: 0 :: 0 :: 1 :: c0 :: c1 :: c2 :: c3 :: b) (fuel + 1) 0 []
          = nbt_loop sizeof_T (9 :: 0 :: 0 :: 1 :: c0 :: c1 :: c2 :: c3 :: b) fuel 8
              [⟨some [], nbt_value.nbt_list_t (le_signed32 [c0, c1, c2, c3])
                (to_signed 1 (le_nat [1]))⟩]) :=
  ⟨rfl, fun sizeof_T => ⟨rfl, rfl, fun c0 c1 c2 c3 b fuel =>
    nbt_loop_list_head sizeof_T 1 c0 c1 c2 c3 b fuel⟩⟩

/-- C16 fails on the code: the Byte node `01 01 00 61 05`, named `a` with the
value 5, is rejected, and the value read for it is `0x61`, the byte of the
name. For every name of one byte the value read is the byte of the name and
the loop goes on at the offset 4, where the payload is then read as a type
tag; the layout of the claim is followed for the empty name only. -/
theorem parse_nbt_name_not_skipped :
    parse_nbt (fun _ => 16) [1, 1, 0, 0x61, 5] = some false ∧
    ∀ sizeof_T : Nat → Nat,
      parse_nbt sizeof_T [1, 1, 0, 0x61, 5] = some false ∧
      parse_nbt_run sizeof_T [1, 1, 0, 0x61, 5]
        = outcome.returned false [⟨some [0x61], nbt_value.int8_t 0x61⟩] (some 5) ∧
      (∀ (a v : Byte) (fuel : Nat),
        nbt_loop sizeof_T [1, 1, 0, a, v] (fuel + 1) 0 []
          = nbt_loop sizeof_T [1, 1, 0, a, v] fuel 4
              [⟨some [a], nbt_value.int8_t (to_signed 1 (le_nat [a]))⟩]) ∧
      (∀ v : Byte, parse_nbt_run sizeof_T [1, 0, 0, v]
        = outcome.returned true [⟨some [], nbt_value.int8_t (to_signed 1 (le_nat [v]))⟩]
            (some 4)) := by
  refine ⟨rfl, fun sizeof_T => ⟨rfl, rfl, fun a v fuel => ?_, fun v => ?_⟩⟩
  · have h := nbt_loop_byte_head sizeof_T 1 0 a [v] fuel (by simp [le_nat])
    simpa [le_nat] using h
  · have h := nbt_loop_byte_head sizeof_T 0 0 v [] 4 (by simp [le_nat])
    simp only [parse_nbt_run, List.length_cons, List.length_nil, Nat.add_one_ne_zero, if_false]
    rw [h]
    simp [nbt_loop, le_nat]

/-- C20 fails on the code: for the ByteArray of one byte in
`07 00 00 01 00 00 00 AA 01 00 00 07` the pointer returned is the end of the
count plus `sizeof(T)`, the size of the view structure, and not plus the one
byte of the element. With a structure of 16 bytes the pointer is 23, past the
end of the buffer, and the Byte node that follows is not read; it is read
only if the structure had the size 1 of the element. -/
theorem read_val_array_cursor_sizeof :
    (∀ (sizeof_T : Nat → Nat) (fuel : Nat),
      nbt_loop sizeof_T [7, 0, 0, 1, 0, 0, 0, 0xAA, 1, 0, 0, 7] (fuel + 1) 0 []
        = nbt_loop sizeof_T [7, 0, 0, 1, 0, 0, 0, 0xAA, 1, 0, 0, 7] fuel
            (7 + (sizeof_T 7 * 1) % 18446744073709551616)
            [⟨some [], nbt_value.nbt_byte_array_t 1 7⟩]) ∧
    parse_nbt_run (fun _ => 16) [7, 0, 0, 1, 0, 0, 0, 0xAA, 1, 0, 0, 7]
      = outcome.returned true [⟨some [], nbt_value.nbt_byte_array_t 1 7⟩] (some 23) ∧
    parse_nbt_run (fun _ => 1) [7, 0, 0, 1, 0, 0, 0, 0xAA, 1, 0, 0, 7]
      = outcome.returned true
          [⟨some [], nbt_value.nbt_byte_array_t 1 7⟩, ⟨some [], nbt_value.int8_t 7⟩]
          (some 12) := by
  refine ⟨fun sizeof_T fuel => ?_, by decide, by decide⟩
  have h : read_val_array (element_width 7) (sizeof_T 7) nbt_value.nbt_byte_array_t
      [7, 0, 0, 1, 0, 0, 0, 0xAA, 1, 0, 0, 7] 3 [] []
      = some (some (7 + (sizeof_T 7 * 1) % 18446744073709551616),
          [⟨some [], nbt_value.nbt_byte_array_t 1 7⟩]) :=
    read_val_array_cursor (element_width 7) (sizeof_T 7) nbt_value.nbt_byte_array_t
      [7, 0, 0] 1 0 0 0 [0xAA, 1, 0, 0, 7] [] [] (by decide) (by decide)
  rw [nbt_loop_head sizeof_T 7 _ _ (by decide)]
  simp only [nbt_switch, switch_assign]
  rw [h]


/-! ## Chunk keys: the sentinel and the minimal form -/

/-- The tag of a parsed record is a chunk tag. -/
theorem parse_tag (k : List Byte) (r : chunk_t) (hr : parse_chunk_key k = some r) :
    (45 ≤ r.tag ∧ r.tag ≤ 58) ∨ r.tag = 118 := by
  have hk : is_chunk_key k = true := by
    cases h : is_chunk_key k
    · simp [parse_chunk_key, h] at hr
    · rfl
  have key : ∀ t : Byte, tag_test t = true →
      (45 ≤ charVal t ∧ charVal t ≤ 58) ∨ charVal t = 118 := by
    intro t ht
    have := (tag_test_iff t).mp ht
    rw [charVal_of_tag_test t ht]
    omega
  rcases chunk_key_shape k hk with
    ⟨a0, a1, a2, a3, a4, a5, a6, a7, t, rfl, ht⟩ |
    ⟨a0, a1, a2, a3, a4, a5, a6, a7, t, s, rfl, ht⟩ |
    ⟨a0, a1, a2, a3, a4, a5, a6, a7, d0, d1, d2, d3, t, rfl, ht⟩ |
    ⟨a0, a1, a2, a3, a4, a5, a6, a7, d0, d1, d2, d3, t, s, rfl, ht⟩
  · rw [parse_nine _ _ _ _ _ _ _ _ _ ht] at hr
    cases hr
    exact key t ht
  · rw [parse_ten _ _ _ _ _ _ _ _ _ _ ht] at hr
    cases hr
    exact key t ht
  · rw [parse_thirteen _ _ _ _ _ _ _ _ _ _ _ _ _ ht] at hr
    cases hr
    exact key t ht
  · rw [parse_fourteen _ _ _ _ _ _ _ _ _ _ _ _ _ _ ht] at hr
    cases hr
    exact key t ht

/-- The `char` stored in the byte `0xFF` is `-1`. -/
theorem charVal_255 : charVal 255 = -1 := by decide

/-- C18. For every chunk key of 9 or 13 bytes, the key with the byte `0xFF`
appended is a chunk key and parses to the same record, with the subtag `-1`:
a stored subtag byte 255 is not told apart from an absent subtag. The key
created for the parsed record has no subtag byte (it has 9 or 13 bytes), and
it is the key without the appended byte when that key is in minimal form. -/
theorem parse_sentinel_alias (k : List Byte) (hk : is_chunk_key k = true)
    (hlen : k.length = 9 ∨ k.length = 13) :
    is_chunk_key (k ++ [255]) = true ∧
    parse_chunk_key (k ++ [255]) = parse_chunk_key k ∧
    ∃ r : chunk_t, parse_chunk_key (k ++ [255]) = some r ∧ r.subtag = -1 ∧
      ((create_chunk_key r).length = 9 ∨ (create_chunk_key r).length = 13) ∧
      create_chunk_key r ≠ k ++ [255] ∧
      ((k.length = 9 ∨ (k.drop 8).take 4 ≠ [0, 0, 0, 0]) → create_chunk_key r = k) := by
  rcases chunk_key_shape k hk with
    ⟨a0, a1, a2, a3, a4, a5, a6, a7, t, rfl, ht⟩ |
    ⟨a0, a1, a2, a3, a4, a5, a6, a7, t, s, rfl, ht⟩ |
    ⟨a0, a1, a2, a3, a4, a5, a6, a7, d0, d1, d2, d3, t, rfl, ht⟩ |
    ⟨a0, a1, a2, a3, a4, a5, a6, a7, d0, d1, d2, d3, t, s, rfl, ht⟩
  · have hp := parse_nine a0 a1 a2 a3 a4 a5 a6 a7 t ht
    have hp2 := parse_ten a0 a1 a2 a3 a4 a5 a6 a7 t 255 ht
    rw [charVal_255] at hp2
    have hc := create_parse _ _ hk hp (by simp) (by simp)
    refine ⟨by simp [is_chunk_key, ht], ?_, _, hp2, rfl, ?_, ?_, fun _ => hc⟩
    · simp only [List.cons_append, List.nil_append]
      rw [hp, hp2]
    · rw [hc]
      simp
    · rw [hc]
      simp
  · simp at hlen
  · have hp := parse_thirteen a0 a1 a2 a3 a4 a5 a6 a7 d0 d1 d2 d3 t ht
    have hp2 := parse_fourteen a0 a1 a2 a3 a4 a5 a6 a7 d0 d1 d2 d3 t 255 ht
    rw [charVal_255] at hp2
    have hl := create_length ⟨word d0 d1 d2 d3, word a0 a1 a2 a3, word a4 a5 a6 a7,
      charVal t, -1⟩
    simp only [ne_eq, not_true_eq_false, if_false] at hl
    refine ⟨by simp [is_chunk_key, ht], ?_, _, hp2, rfl, ?_, ?_, ?_⟩
    · simp only [List.cons_append, List.nil_append]
      rw [hp, hp2]
    · rw [hl]
      split <;> simp
    · intro he
      have := congrArg List.length he
      rw [hl] at this
      simp only [List.cons_append, List.nil_append, List.length_cons, List.length_nil] at this
      split at this <;> omega
    · intro hmin
      exact create_parse _ _ hk hp
        (fun _ => by
          rcases hmin with h | h
          · simp at h
          · exact h)
        (by simp)
  · simp at hlen

/-- C18 at the 9-byte key `01 00 00 00 02 00 00 00 2D`. -/
theorem parse_sentinel_alias_witness :
    parse_chunk_key [1, 0, 0, 0, 2, 0, 0, 0, 0x2D, 255]
      = parse_chunk_key [1, 0, 0, 0, 2, 0, 0, 0, 0x2D] ∧
    parse_chunk_key [1, 0, 0, 0, 2, 0, 0, 0, 0x2D, 255] = some ⟨0, 1, 2, 45, -1⟩ ∧
    create_chunk_key ⟨0, 1, 2, 45, -1⟩ = [1, 0, 0, 0, 2, 0, 0, 0, 0x2D] :=
  ⟨(parse_sentinel_alias [1, 0, 0, 0, 2, 0, 0, 0, 0x2D] (by decide) (Or.inl rfl)).2.1,
   by decide, by decide⟩


/-- The key created for the record parsed from a key whose dimension bytes are
all zero: the bytes of `x` and `z` and the tag, then the subtag byte unless
it is `0xFF`. -/
theorem create_parse_zero_dimension (k : List Byte) (r : chunk_t)
    (hk : is_chunk_key k = true) (hr : parse_chunk_key k = some r)
    (hlen : k.length = 13 ∨ k.length = 14) (hz : (k.drop 8).take 4 = [0, 0, 0, 0]) :
    r.dimension = 0 ∧ (create_chunk_key r).take 9 = k.take 8 ++ (k.drop 12).take 1 ∧
    (k.getLast? ≠ some 255 → create_chunk_key r = k.take 8 ++ k.drop 12) := by
  have hw : word 0 0 0 0 = 0 := by decide
  rcases chunk_key_shape k hk with
    ⟨a0, a1, a2, a3, a4, a5, a6, a7, t, rfl, ht⟩ |
    ⟨a0, a1, a2, a3, a4, a5, a6, a7, t, s, rfl, ht⟩ |
    ⟨a0, a1, a2, a3, a4, a5, a6, a7, d0, d1, d2, d3, t, rfl, ht⟩ |
    ⟨a0, a1, a2, a3, a4, a5, a6, a7, d0, d1, d2, d3, t, s, rfl, ht⟩
  · simp at hlen
  · simp at hlen
  · simp only [List.drop_succ_cons, List.drop_zero, List.take_succ_cons, List.take_zero,
      List.cons.injEq, and_true] at hz
    obtain ⟨rfl, rfl, rfl, rfl⟩ := hz
    rw [parse_thirteen _ _ _ _ _ _ _ _ _ _ _ _ _ ht] at hr
    cases hr
    simp [create_chunk_key, put_word, charByte_charVal, hw]
  · simp only [List.drop_succ_cons, List.drop_zero, List.take_succ_cons, List.take_zero,
      List.cons.injEq, and_true] at hz
    obtain ⟨rfl, rfl, rfl, rfl⟩ := hz
    rw [parse_fourteen _ _ _ _ _ _ _ _ _ _ _ _ _ _ ht] at hr
    cases hr
    refine ⟨hw, ?_, ?_⟩
    · by_cases hs : charVal s = -1 <;>
        simp [create_chunk_key, put_word, charByte_charVal, hw, hs]
    · intro hl
      have hs : charVal s ≠ -1 := by
        rw [ne_eq, charVal_eq_neg_one]
        intro h
        have e : s = 255 := Fin.ext h
        subst e
        exact hl rfl
      simp [create_chunk_key, put_word, charByte_charVal, hw, hs]

/-- The key created for a parsed record is not longer than any key that
parses to the record. -/
theorem create_length_le (k : List Byte) (r : chunk_t) (hr : parse_chunk_key k = some r) :
    (create_chunk_key r).length ≤ k.length := by
  have hk : is_chunk_key k = true := by
    cases h : is_chunk_key k
    · simp [parse_chunk_key, h] at hr
    · rfl
  rw [create_length]
  rcases chunk_key_shape k hk with
    ⟨a0, a1, a2, a3, a4, a5, a6, a7, t, rfl, ht⟩ |
    ⟨a0, a1, a2, a3, a4, a5, a6, a7, t, s, rfl, ht⟩ |
    ⟨a0, a1, a2, a3, a4, a5, a6, a7, d0, d1, d2, d3, t, rfl, ht⟩ |
    ⟨a0, a1, a2, a3, a4, a5, a6, a7, d0, d1, d2, d3, t, s, rfl, ht⟩
  · rw [parse_nine _ _ _ _ _ _ _ _ _ ht] at hr
    cases hr
    simp
  · rw [parse_ten _ _ _ _ _ _ _ _ _ _ ht] at hr
    cases hr
    simp only [ne_eq, not_true_eq_false, if_false, List.length_cons, List.length_nil]
    split <;> omega
  · rw [parse_thirteen _ _ _ _ _ _ _ _ _ _ _ _ _ ht] at hr
    cases hr
    simp only [ne_eq, not_true_eq_false, if_false, List.length_cons, List.length_nil]
    split <;> omega
  · rw [parse_fourteen _ _ _ _ _ _ _ _ _ _ _ _ _ _ ht] at hr
    cases hr
    simp only [ne_eq, List.length_cons, List.length_nil]
    split <;> split <;> omega

/-- C19. For every chunk key `k`, the key `create_chunk_key r` of the record
`r` it parses to is a chunk key that parses to the same record, so that
creating the key again gives it back; no key that parses to the record is
shorter; it has 9 or 10 bytes when the parsed dimension is 0, and for a key
of 13 or 14 bytes whose bytes `[8,12)` are all zero it is the key with those
four bytes removed (and without the subtag byte if that is the sentinel
`0xFF`). -/
theorem create_parse_normal (k : List Byte) (hk : is_chunk_key k = true) :
    ∃ r : chunk_t, parse_chunk_key k = some r ∧
      is_chunk_key (create_chunk_key r) = true ∧
      parse_chunk_key (create_chunk_key r) = some r ∧
      (∀ r1 : chunk_t, parse_chunk_key (create_chunk_key r) = some r1 →
        create_chunk_key r1 = create_chunk_key r) ∧
      (∀ k2 : List Byte, parse_chunk_key k2 = some r →
        (create_chunk_key r).length ≤ k2.length) ∧
      (r.dimension = 0 →
        (create_chunk_key r).length = 9 ∨ (create_chunk_key r).length = 10) ∧
      ((k.length = 13 ∨ k.length = 14) ∧ (k.drop 8).take 4 = [0, 0, 0, 0] →
        r.dimension = 0 ∧ (create_chunk_key r).take 9 = k.take 8 ++ (k.drop 12).take 1 ∧
        (k.getLast? ≠ some 255 → create_chunk_key r = k.take 8 ++ k.drop 12)) := by
  obtain ⟨r, hr⟩ := parse_isSome k hk
  obtain ⟨hck, hpc⟩ := parse_create r (parse_inRange k r hr) (parse_tag k r hr)
  refine ⟨r, hr, hck, hpc, ?_, fun k2 h2 => create_length_le k2 r h2, ?_, ?_⟩
  · intro r1 h1
    rw [hpc] at h1
    cases h1
    rfl
  · intro hd
    rw [create_length, if_neg (not_not.mpr hd)]
    by_cases hs : r.subtag = -1 <;> simp [hs]
  · rintro ⟨hlen, hz⟩
    exact create_parse_zero_dimension k r hk hr hlen hz

/-- C19 at the 14-byte key `01 00 00 00 02 00 00 00 00 00 00 00 2D 07`, which
is rewritten to the 10-byte key `01 00 00 00 02 00 00 00 2D 07`. -/
theorem create_parse_normal_witness :
    (∃ r : chunk_t,
      parse_chunk_key [1, 0, 0, 0, 2, 0, 0, 0, 0, 0, 0, 0, 0x2D, 7] = some r ∧
      is_chunk_key (create_chunk_key r) = true ∧
      parse_chunk_key (create_chunk_key r) = some r) ∧
    parse_chunk_key [1, 0, 0, 0, 2, 0, 0, 0, 0, 0, 0, 0, 0x2D, 7] = some ⟨0, 1, 2, 45, 7⟩ ∧
    create_chunk_key ⟨0, 1, 2, 45, 7⟩ = [1, 0, 0, 0, 2, 0, 0, 0, 0x2D, 7] :=
  ⟨(create_parse_normal [1, 0, 0, 0, 2, 0, 0, 0, 0, 0, 0, 0, 0x2D, 7] (by decide)).imp
      (fun _ h => ⟨h.1, h.2.1, h.2.2.1⟩),
   by decide, by decide⟩

end mcberepair
